import Mathlib

/-!
Verification of the hire-ai-backend core algorithms against their
natural-language specification.  The Python services are shallowly embedded:
strings are lists of characters, Python `float` arithmetic on the small exact
values used by the scorer is modelled by `ℚ`, fallible code returns `Except`,
and Python truthiness of optional values is made explicit.
-/

namespace HireAI

/-- Exact character equality, as used by Python `str.replace` and `in`. -/
def exEq (a b : Char) : Bool := a == b

/-- Case-insensitive character equality, modelling `re.IGNORECASE` matching of
a `re.escape`d literal pattern. -/
def ciEq (a b : Char) : Bool := a.toLower == b.toLower

/-- Does `pat` match the beginning of `s`, characters compared by `eqv`? -/
def isPrefixBy (eqv : Char → Char → Bool) : List Char → List Char → Bool
  | [], _ => true
  | _ :: _, [] => false
  | p :: ps, c :: cs => eqv p c && isPrefixBy eqv ps cs

/-- Does `pat` occur somewhere in `s` (modulo `eqv`)?  With `exEq` this is
Python's `pat in s`; with `ciEq` it is a successful case-insensitive search
for the escaped literal. -/
def hasSubstrBy (eqv : Char → Char → Bool) (pat : List Char) : List Char → Bool
  | [] => isPrefixBy eqv pat []
  | c :: cs => isPrefixBy eqv pat (c :: cs) || hasSubstrBy eqv pat cs

/-- Fuel-indexed scanner behind `replaceAllByAux`; the fuel is always at least
the length of the scanned list, so the fuel-exhausted case is unreachable. -/
def replaceAllGo (eqv : Char → Char → Bool) (pat rep : List Char) :
    ℕ → List Char → List Char
  | _, [] => []
  | 0, _ :: _ => []
  | n + 1, c :: cs =>
    if isPrefixBy eqv pat (c :: cs) then
      rep ++ replaceAllGo eqv pat rep n (cs.drop (pat.length - 1))
    else
      c :: replaceAllGo eqv pat rep n cs

theorem replaceAllGo_fuel (eqv : Char → Char → Bool) (pat rep : List Char) :
    ∀ (n m : ℕ) (s : List Char), s.length ≤ n → s.length ≤ m →
      replaceAllGo eqv pat rep n s = replaceAllGo eqv pat rep m s := by
  intro n
  induction n with
  | zero =>
    intro m s hn _
    rw [List.length_eq_zero.mp (Nat.le_zero.mp hn)]
    cases m <;> rfl
  | succ n ih =>
    intro m s hn hm
    cases s with
    | nil => cases m <;> rfl
    | cons c cs =>
      cases m with
      | zero => simp at hm
      | succ m' =>
        simp only [List.length_cons, Nat.succ_le_succ_iff] at hn hm
        show (if isPrefixBy eqv pat (c :: cs) then
            rep ++ replaceAllGo eqv pat rep n (cs.drop (pat.length - 1))
          else c :: replaceAllGo eqv pat rep n cs) =
          (if isPrefixBy eqv pat (c :: cs) then
            rep ++ replaceAllGo eqv pat rep m' (cs.drop (pat.length - 1))
          else c :: replaceAllGo eqv pat rep m' cs)
        cases hmatch : isPrefixBy eqv pat (c :: cs) with
        | true =>
          rw [if_pos rfl, if_pos rfl,
            ih m' (cs.drop (pat.length - 1))
              (le_trans (by simpa using List.length_drop_le _ _) hn)
              (le_trans (by simpa using List.length_drop_le _ _) hm)]
        | false =>
          rw [if_neg (by simp), if_neg (by simp), ih m' cs hn hm]

/-- Replace every leftmost, non-overlapping occurrence of the non-empty
pattern `pat` in `s` by `rep` (scanning left to right).  This is the common
behaviour of `str.replace` and of `re.sub` on an escaped literal. -/
def replaceAllByAux (eqv : Char → Char → Bool) (pat rep : List Char)
    (s : List Char) : List Char :=
  replaceAllGo eqv pat rep s.length s

/-- Replace all occurrences of `pat` in `s` by `rep`.  For an empty pattern
Python inserts the replacement before every character and at the end
(`"ab".replace("", "X") = "XaXbX"`); the callers below always guard against
the empty pattern. -/
def replaceAllBy (eqv : Char → Char → Bool) (pat rep : List Char)
    (s : List Char) : List Char :=
  match pat with
  | [] => rep ++ s.foldr (fun c acc => c :: (rep ++ acc)) []
  | _ :: _ => replaceAllByAux eqv pat rep s

theorem replaceAllBy_of_ne_nil (eqv : Char → Char → Bool) {pat : List Char}
    (rep s : List Char) (h : pat ≠ []) :
    replaceAllBy eqv pat rep s = replaceAllByAux eqv pat rep s := by
  cases pat with
  | nil => exact absurd rfl h
  | cons p ps => rfl

theorem isPrefixBy_nil (eqv : Char → Char → Bool) (s : List Char) :
    isPrefixBy eqv [] s = true := by
  cases s <;> rfl

theorem isPrefixBy_ne_nil_nil (eqv : Char → Char → Bool) {pat : List Char}
    (h : pat ≠ []) : isPrefixBy eqv pat [] = false := by
  cases pat with
  | nil => exact absurd rfl h
  | cons p ps => rfl

theorem hasSubstrBy_nil_of_ne_nil (eqv : Char → Char → Bool) {pat : List Char}
    (h : pat ≠ []) : hasSubstrBy eqv pat [] = false := by
  simp [hasSubstrBy, isPrefixBy_ne_nil_nil eqv h]

theorem hasSubstrBy_cons_eq (eqv : Char → Char → Bool) (pat : List Char)
    (c : Char) (cs : List Char) :
    hasSubstrBy eqv pat (c :: cs) =
      (isPrefixBy eqv pat (c :: cs) || hasSubstrBy eqv pat cs) := rfl

theorem hasSubstrBy_tail_false (eqv : Char → Char → Bool) {pat : List Char}
    {c : Char} {cs : List Char} (h : hasSubstrBy eqv pat (c :: cs) = false) :
    isPrefixBy eqv pat (c :: cs) = false ∧ hasSubstrBy eqv pat cs = false := by
  rw [hasSubstrBy_cons_eq] at h
  exact ⟨by simpa using (Bool.or_eq_false_iff.mp h).1,
         by simpa using (Bool.or_eq_false_iff.mp h).2⟩

theorem hasSubstrBy_drop_false (eqv : Char → Char → Bool) {pat : List Char} :
    ∀ (s : List Char) (n : ℕ), hasSubstrBy eqv pat s = false →
      hasSubstrBy eqv pat (s.drop n) = false := by
  intro s
  induction s with
  | nil => intro n h; simpa using h
  | cons c cs ih =>
    intro n h
    cases n with
    | zero => simpa using h
    | succ m => exact ih m (hasSubstrBy_tail_false eqv h).2

theorem hasSubstrBy_append_right (eqv : Char → Char → Bool) {pat b : List Char}
    (h : hasSubstrBy eqv pat b = true) :
    ∀ a : List Char, hasSubstrBy eqv pat (a ++ b) = true := by
  intro a
  induction a with
  | nil => simpa using h
  | cons c cs ih =>
    rw [List.cons_append, hasSubstrBy_cons_eq, ih]
    simp

/-- If the whole pattern matches inside the left part of an append, then every
pattern character is `eqv`-matched by some character of the left part. -/
theorem isPrefixBy_mem_left (eqv : Char → Char → Bool) :
    ∀ (pat t u : List Char), isPrefixBy eqv pat (t ++ u) = true →
      pat.length ≤ t.length → ∀ d ∈ pat, ∃ c ∈ t, eqv d c = true := by
  intro pat
  induction pat with
  | nil => intro t u _ _ d hd; simp at hd
  | cons p ps ih =>
    intro t u hpre hlen d hd
    cases t with
    | nil => simp at hlen
    | cons c ts =>
      rw [List.cons_append] at hpre
      simp only [isPrefixBy, Bool.and_eq_true] at hpre
      rcases List.mem_cons.mp hd with hd | hd
      · exact ⟨c, by simp, hd ▸ hpre.1⟩
      · obtain ⟨c', hc', he⟩ := ih ts u hpre.2 (by simpa using hlen) d hd
        exact ⟨c', by simp [hc'], he⟩

/-- If a pattern at least as long as the left part of an append matches, then
every character of the left part is `eqv`-matched by some pattern char. -/
theorem isPrefixBy_covers_left (eqv : Char → Char → Bool) :
    ∀ (t pat u : List Char), isPrefixBy eqv pat (t ++ u) = true →
      t.length ≤ pat.length → ∀ c ∈ t, ∃ d ∈ pat, eqv d c = true := by
  intro t
  induction t with
  | nil => intro pat u _ _ c hc; simp at hc
  | cons c ts ih =>
    intro pat u hpre hlen c' hc'
    cases pat with
    | nil => simp at hlen
    | cons p ps =>
      rw [List.cons_append] at hpre
      simp only [isPrefixBy, Bool.and_eq_true] at hpre
      rcases List.mem_cons.mp hc' with hc' | hc'
      · exact ⟨p, by simp, hc' ▸ hpre.1⟩
      · obtain ⟨d, hd, he⟩ := ih ps u hpre.2 (by simpa using hlen) c' hc'
        exact ⟨d, by simp [hd], he⟩

theorem isPrefixBy_length_le (eqv : Char → Char → Bool) :
    ∀ (pat s : List Char), isPrefixBy eqv pat s = true → pat.length ≤ s.length := by
  intro pat
  induction pat with
  | nil => intro s _; simp
  | cons p ps ih =>
    intro s h
    cases s with
    | nil => simp [isPrefixBy] at h
    | cons c cs =>
      simp only [isPrefixBy, Bool.and_eq_true] at h
      simpa using ih cs h.2

theorem isPrefixBy_append_left_of_le (eqv : Char → Char → Bool) :
    ∀ (pat t u : List Char), isPrefixBy eqv pat (t ++ u) = true →
      pat.length ≤ t.length → isPrefixBy eqv pat t = true := by
  intro pat
  induction pat with
  | nil => intro t u _ _; rw [isPrefixBy_nil]
  | cons p ps ih =>
    intro t u h hlen
    cases t with
    | nil => simp at hlen
    | cons c ts =>
      rw [List.cons_append] at h
      simp only [isPrefixBy, Bool.and_eq_true] at h ⊢
      exact ⟨h.1, ih ts u h.2 (by simpa using hlen)⟩

/-- An occurrence of a pattern matches every pattern character to some
character of the searched text. -/
theorem hasSubstrBy_mem_matched (eqv : Char → Char → Bool) :
    ∀ (s pat : List Char), hasSubstrBy eqv pat s = true →
      ∀ d ∈ pat, ∃ c ∈ s, eqv d c = true := by
  intro s
  induction s with
  | nil =>
    intro pat h d hd
    cases pat with
    | nil => simp at hd
    | cons p ps => rw [hasSubstrBy_nil_of_ne_nil eqv (by simp)] at h; exact absurd h (by simp)
  | cons c cs ih =>
    intro pat h d hd
    rw [hasSubstrBy_cons_eq, Bool.or_eq_true] at h
    rcases h with h | h
    · have hlen := isPrefixBy_length_le eqv pat (c :: cs) h
      obtain ⟨c', hc', he⟩ := isPrefixBy_mem_left eqv pat (c :: cs) []
        (by rwa [List.append_nil]) hlen d hd
      exact ⟨c', hc', he⟩
    · obtain ⟨c', hc', he⟩ := ih pat h d hd
      exact ⟨c', by simp [hc'], he⟩

/-- A pattern one of whose characters matches no character of `s` cannot
occur in `s`. -/
theorem hasSubstrBy_special_false (eqv : Char → Char → Bool) {pat s : List Char}
    (h : ∃ d ∈ pat, ∀ c ∈ s, eqv d c = false) : hasSubstrBy eqv pat s = false := by
  cases hocc : hasSubstrBy eqv pat s with
  | false => rfl
  | true =>
    obtain ⟨d, hd, hav⟩ := h
    obtain ⟨c, hc, he⟩ := hasSubstrBy_mem_matched eqv s pat hocc d hd
    rw [hav c hc] at he
    exact absurd he (by simp)

/-- A pattern that does not occur in the block `rs ++ [lastch]` and whose
characters all avoid `lastch` cannot occur in `(rs ++ [lastch]) ++ b` if it
does not occur in `b`: an occurrence would be inside the block, or cover its
last character while straddling into `b`. -/
theorem hasSubstrBy_block_append_false (eqv : Char → Char → Bool)
    {pat : List Char} (hpat : pat ≠ []) (lastch : Char) :
    ∀ (rs b : List Char),
      hasSubstrBy eqv pat (rs ++ [lastch]) = false →
      (∀ d ∈ pat, eqv d lastch = false) →
      hasSubstrBy eqv pat b = false →
      hasSubstrBy eqv pat ((rs ++ [lastch]) ++ b) = false := by
  intro rs
  induction rs with
  | nil =>
    intro b _ hlast hb
    rw [List.nil_append, List.singleton_append, hasSubstrBy_cons_eq, hb]
    cases pat with
    | nil => exact absurd rfl hpat
    | cons p ps =>
      simp only [isPrefixBy, Bool.or_false, Bool.and_eq_false_iff]
      left
      exact hlast p (by simp)
  | cons r rs' ih =>
    intro b hblock hlast hb
    rw [List.cons_append, List.cons_append, hasSubstrBy_cons_eq]
    have hblock' : hasSubstrBy eqv pat (rs' ++ [lastch]) = false := by
      have hrc : hasSubstrBy eqv pat (r :: (rs' ++ [lastch])) = false := by
        simpa using hblock
      exact (hasSubstrBy_tail_false eqv hrc).2
    have htail : hasSubstrBy eqv pat ((rs' ++ [lastch]) ++ b) = false :=
      ih b hblock' hlast hb
    rw [htail]
    simp only [Bool.or_false]
    by_contra hcon
    rw [Bool.not_eq_false] at hcon
    rw [show (r :: (rs' ++ [lastch] ++ b)) = (r :: rs' ++ [lastch]) ++ b by simp] at hcon
    rcases Nat.le_total pat.length (r :: rs' ++ [lastch]).length with hle | hle
    · have hpre : isPrefixBy eqv pat (r :: rs' ++ [lastch]) = true :=
        isPrefixBy_append_left_of_le eqv pat (r :: rs' ++ [lastch]) b hcon hle
      have hocc : hasSubstrBy eqv pat (r :: (rs' ++ [lastch])) = true := by
        rw [hasSubstrBy_cons_eq, Bool.or_eq_true]
        left
        simpa using hpre
      rw [show (r :: (rs' ++ [lastch])) = (r :: rs') ++ [lastch] by simp] at hocc
      rw [hblock] at hocc
      exact absurd hocc (by simp)
    · obtain ⟨d, hd, he⟩ := isPrefixBy_covers_left eqv (r :: rs' ++ [lastch]) pat b hcon hle
        lastch (by simp)
      have : eqv d lastch = false := hlast d hd
      rw [this] at he
      exact Bool.false_ne_true he

theorem replaceAllByAux_nil_eq (eqv : Char → Char → Bool) (pat rep : List Char) :
    replaceAllByAux eqv pat rep [] = [] := rfl

theorem replaceAllByAux_cons_pos (eqv : Char → Char → Bool) (pat rep : List Char)
    {c : Char} {cs : List Char} (h : isPrefixBy eqv pat (c :: cs) = true) :
    replaceAllByAux eqv pat rep (c :: cs) =
      rep ++ replaceAllByAux eqv pat rep (cs.drop (pat.length - 1)) := by
  show (if isPrefixBy eqv pat (c :: cs) then
      rep ++ replaceAllGo eqv pat rep cs.length (cs.drop (pat.length - 1))
    else c :: replaceAllGo eqv pat rep cs.length cs) = _
  rw [if_pos h, replaceAllByAux,
    replaceAllGo_fuel eqv pat rep cs.length (cs.drop (pat.length - 1)).length _
      (by simpa using List.length_drop_le _ _) le_rfl]

theorem replaceAllByAux_cons_neg (eqv : Char → Char → Bool) (pat rep : List Char)
    {c : Char} {cs : List Char} (h : isPrefixBy eqv pat (c :: cs) = false) :
    replaceAllByAux eqv pat rep (c :: cs) = c :: replaceAllByAux eqv pat rep cs := by
  show (if isPrefixBy eqv pat (c :: cs) then
      rep ++ replaceAllGo eqv pat rep cs.length (cs.drop (pat.length - 1))
    else c :: replaceAllGo eqv pat rep cs.length cs) = _
  rw [if_neg (by simp [h]), replaceAllByAux]

/-- A failed `eqv1`-prefix match of `q` survives any replacement whose
substitute starts with a character that no character of `q` matches: the
replacement either keeps the head character or inserts the substitute, whose
first character blocks the match. -/
theorem isPrefixBy_replaceAllAux_false (eqv1 eqv2 : Char → Char → Bool)
    (pat2 : List Char) (r0 : Char) (rrest : List Char) :
    ∀ (s q : List Char), q ≠ [] → (∀ d ∈ q, eqv1 d r0 = false) →
      isPrefixBy eqv1 q s = false →
      isPrefixBy eqv1 q (replaceAllByAux eqv2 pat2 (r0 :: rrest) s) = false := by
  intro s
  induction s with
  | nil => intro q hq _ h; rwa [replaceAllByAux_nil_eq]
  | cons c cs ih =>
    intro q hq havoid h
    cases hmatch : isPrefixBy eqv2 pat2 (c :: cs) with
    | true =>
      rw [replaceAllByAux_cons_pos eqv2 pat2 (r0 :: rrest) hmatch]
      cases q with
      | nil => exact absurd rfl hq
      | cons q0 qs =>
        rw [List.cons_append]
        simp only [isPrefixBy, Bool.and_eq_false_iff]
        left
        exact havoid q0 (by simp)
    | false =>
      rw [replaceAllByAux_cons_neg eqv2 pat2 (r0 :: rrest) hmatch]
      cases q with
      | nil => exact absurd rfl hq
      | cons q0 qs =>
        simp only [isPrefixBy, Bool.and_eq_false_iff] at h ⊢
        cases he : eqv1 q0 c with
        | false => exact Or.inl rfl
        | true =>
          rcases h with h | h
          · exact absurd h (by simp [he])
          · right
            have hqs : qs ≠ [] := by
              intro hnil
              rw [hnil, isPrefixBy_nil] at h
              exact absurd h (by simp)
            exact ih qs hqs (fun d hd => havoid d (by simp [hd])) h

/-- Core redaction lemma: after replacing every occurrence of `pat` by a
bracketed marker `r0 :: (rmid ++ [rb])` whose first and last characters no
pattern character matches, and in which the pattern does not occur,
the pattern no longer occurs anywhere in the result. -/
theorem hasSubstrBy_replaceAllAux_self_false (eqv : Char → Char → Bool)
    (pat : List Char) (r0 : Char) (rmid : List Char) (rb : Char)
    (hpat : pat ≠ [])
    (h0 : ∀ d ∈ pat, eqv d r0 = false)
    (hrb : ∀ d ∈ pat, eqv d rb = false)
    (habs_rep : hasSubstrBy eqv pat (r0 :: (rmid ++ [rb])) = false) :
    ∀ s : List Char,
      hasSubstrBy eqv pat (replaceAllByAux eqv pat (r0 :: (rmid ++ [rb])) s) = false := by
  have main : ∀ n : ℕ, ∀ s : List Char, s.length ≤ n →
      hasSubstrBy eqv pat (replaceAllByAux eqv pat (r0 :: (rmid ++ [rb])) s) = false := by
    intro n
    induction n with
    | zero =>
      intro s hs
      rw [List.length_eq_zero.mp (Nat.le_zero.mp hs), replaceAllByAux_nil_eq]
      exact hasSubstrBy_nil_of_ne_nil eqv hpat
    | succ n ih =>
      intro s hs
      cases s with
      | nil =>
        rw [replaceAllByAux_nil_eq]
        exact hasSubstrBy_nil_of_ne_nil eqv hpat
      | cons c cs =>
        simp only [List.length_cons, Nat.succ_le_succ_iff] at hs
        cases hmatch : isPrefixBy eqv pat (c :: cs) with
        | true =>
          rw [replaceAllByAux_cons_pos eqv pat _ hmatch]
          have hx : hasSubstrBy eqv pat
              (replaceAllByAux eqv pat (r0 :: (rmid ++ [rb])) (cs.drop (pat.length - 1))) = false :=
            ih _ (le_trans (by simpa using List.length_drop_le _ _) hs)
          have := hasSubstrBy_block_append_false eqv hpat rb (r0 :: rmid) _
            (by simpa using habs_rep) hrb hx
          simpa using this
        | false =>
          rw [replaceAllByAux_cons_neg eqv pat _ hmatch]
          rw [hasSubstrBy_cons_eq]
          have htail : hasSubstrBy eqv pat (replaceAllByAux eqv pat (r0 :: (rmid ++ [rb])) cs) = false :=
            ih cs hs
          have hhead := isPrefixBy_replaceAllAux_false eqv eqv pat r0 (rmid ++ [rb])
            (c :: cs) pat hpat h0 hmatch
          rw [replaceAllByAux_cons_neg eqv pat _ hmatch] at hhead
          rw [hhead, htail]
          rfl
  intro s
  exact main s.length s le_rfl

/-- Absence of a pattern is preserved by replacing a different pattern with a
bracketed marker whose first and last characters no tracked-pattern character
matches, and in which the tracked pattern does not occur. -/
theorem hasSubstrBy_replaceAllAux_preserve_false (eqv1 eqv2 : Char → Char → Bool)
    (pat1 pat2 : List Char) (r0 : Char) (rmid : List Char) (rb : Char)
    (hpat1 : pat1 ≠ [])
    (h0 : ∀ d ∈ pat1, eqv1 d r0 = false)
    (hrb : ∀ d ∈ pat1, eqv1 d rb = false)
    (habs_rep : hasSubstrBy eqv1 pat1 (r0 :: (rmid ++ [rb])) = false) :
    ∀ s : List Char, hasSubstrBy eqv1 pat1 s = false →
      hasSubstrBy eqv1 pat1 (replaceAllByAux eqv2 pat2 (r0 :: (rmid ++ [rb])) s) = false := by
  have main : ∀ n : ℕ, ∀ s : List Char, s.length ≤ n →
      hasSubstrBy eqv1 pat1 s = false →
      hasSubstrBy eqv1 pat1 (replaceAllByAux eqv2 pat2 (r0 :: (rmid ++ [rb])) s) = false := by
    intro n
    induction n with
    | zero =>
      intro s hs _
      rw [List.length_eq_zero.mp (Nat.le_zero.mp hs), replaceAllByAux_nil_eq]
      exact hasSubstrBy_nil_of_ne_nil eqv1 hpat1
    | succ n ih =>
      intro s hs habs
      cases s with
      | nil =>
        rw [replaceAllByAux_nil_eq]
        exact hasSubstrBy_nil_of_ne_nil eqv1 hpat1
      | cons c cs =>
        simp only [List.length_cons, Nat.succ_le_succ_iff] at hs
        obtain ⟨hpre, htl⟩ := hasSubstrBy_tail_false eqv1 habs
        cases hmatch : isPrefixBy eqv2 pat2 (c :: cs) with
        | true =>
          rw [replaceAllByAux_cons_pos eqv2 pat2 _ hmatch]
          have hdropped : hasSubstrBy eqv1 pat1 (cs.drop (pat2.length - 1)) = false :=
            hasSubstrBy_drop_false eqv1 cs _ htl
          have hx := ih _ (le_trans (by simpa using List.length_drop_le _ _) hs) hdropped
          have := hasSubstrBy_block_append_false eqv1 hpat1 rb (r0 :: rmid) _
            (by simpa using habs_rep) hrb hx
          simpa using this
        | false =>
          rw [replaceAllByAux_cons_neg eqv2 pat2 _ hmatch]
          rw [hasSubstrBy_cons_eq]
          have htail := ih cs hs htl
          have hhead := isPrefixBy_replaceAllAux_false eqv1 eqv2 pat2 r0 (rmid ++ [rb])
            (c :: cs) pat1 hpat1 h0 hpre
          rw [replaceAllByAux_cons_neg eqv2 pat2 _ hmatch] at hhead
          rw [hhead, htail]
          rfl
  intro s
  exact main s.length s le_rfl

theorem isPrefixBy_exEq_append (u x : List Char) :
    isPrefixBy exEq u (u ++ x) = true := by
  induction u with
  | nil => rw [List.nil_append, isPrefixBy_nil]
  | cons c cs ih =>
    rw [List.cons_append]
    simp only [isPrefixBy, Bool.and_eq_true]
    exact ⟨by simp [exEq], ih⟩

/-- If `pat` matches at the start of `s` while the exact substring `u` occurs
in `s` and no character of `u` can take part in an `eqv`-match of `pat`, then
`u` occurs entirely past the matched pattern. -/
theorem hasSubstrExact_drop_of_match (eqv : Char → Char → Bool) {u : List Char}
    (hu : u ≠ []) :
    ∀ (pat s : List Char), (∀ cu ∈ u, ∀ d ∈ pat, eqv d cu = false) →
      isPrefixBy eqv pat s = true → hasSubstrBy exEq u s = true →
      hasSubstrBy exEq u (s.drop pat.length) = true := by
  intro pat
  induction pat with
  | nil => intro s _ _ h; simpa using h
  | cons p ps ih =>
    intro s hav hpre hocc
    cases s with
    | nil => simp [isPrefixBy] at hpre
    | cons c cs =>
      simp only [isPrefixBy, Bool.and_eq_true] at hpre
      rw [hasSubstrBy_cons_eq, Bool.or_eq_true] at hocc
      rcases hocc with hocc | hocc
      · cases u with
        | nil => exact absurd rfl hu
        | cons u0 us =>
          simp only [isPrefixBy, Bool.and_eq_true] at hocc
          have hu0 : u0 = c := by
            have := hocc.1
            simpa [exEq] using this
          have : eqv p u0 = false := hav u0 (by simp) p (by simp)
          rw [hu0] at this
          rw [this] at hpre
          exact absurd hpre.1 (by simp)
      · have := ih cs (fun cu hcu d hd => hav cu hcu d (by simp [hd])) hpre.2 hocc
        simpa using this

/-- An exact prefix whose characters cannot take part in a pattern match is
untouched by the replacement. -/
theorem isPrefixExact_replaceAllAux (eqv2 : Char → Char → Bool)
    (pat2 rep2 : List Char) (hpat2 : pat2 ≠ []) :
    ∀ (u s : List Char), (∀ cu ∈ u, ∀ d ∈ pat2, eqv2 d cu = false) →
      isPrefixBy exEq u s = true →
      isPrefixBy exEq u (replaceAllByAux eqv2 pat2 rep2 s) = true := by
  intro u
  induction u with
  | nil => intro s _ _; rw [isPrefixBy_nil]
  | cons u0 us ih =>
    intro s hav hpre
    cases s with
    | nil => simp [isPrefixBy] at hpre
    | cons c cs =>
      simp only [isPrefixBy, Bool.and_eq_true] at hpre
      have hu0 : u0 = c := by simpa [exEq] using hpre.1
      have hnomatch : isPrefixBy eqv2 pat2 (c :: cs) = false := by
        cases pat2 with
        | nil => exact absurd rfl hpat2
        | cons p ps =>
          simp only [isPrefixBy, Bool.and_eq_false_iff]
          left
          have := hav u0 (by simp) p (by simp)
          rwa [hu0] at this
      rw [replaceAllByAux_cons_neg eqv2 pat2 rep2 hnomatch]
      simp only [isPrefixBy, Bool.and_eq_true]
      exact ⟨hpre.1, ih cs (fun cu hcu d hd => hav cu (by simp [hcu]) d hd) hpre.2⟩

/-- An exact substring whose characters cannot take part in a pattern match
survives the replacement. -/
theorem hasSubstrExact_replaceAllAux_preserved (eqv2 : Char → Char → Bool)
    (pat2 rep2 : List Char) (hpat2 : pat2 ≠ []) {u : List Char} (hu : u ≠ [])
    (hav : ∀ cu ∈ u, ∀ d ∈ pat2, eqv2 d cu = false) :
    ∀ s : List Char, hasSubstrBy exEq u s = true →
      hasSubstrBy exEq u (replaceAllByAux eqv2 pat2 rep2 s) = true := by
  have main : ∀ n : ℕ, ∀ s : List Char, s.length ≤ n →
      hasSubstrBy exEq u s = true →
      hasSubstrBy exEq u (replaceAllByAux eqv2 pat2 rep2 s) = true := by
    intro n
    induction n with
    | zero =>
      intro s hs hocc
      rw [List.length_eq_zero.mp (Nat.le_zero.mp hs)] at hocc
      rw [hasSubstrBy_nil_of_ne_nil exEq hu] at hocc
      exact absurd hocc (by simp)
    | succ n ih =>
      intro s hs hocc
      cases s with
      | nil =>
        rw [hasSubstrBy_nil_of_ne_nil exEq hu] at hocc
        exact absurd hocc (by simp)
      | cons c cs =>
        simp only [List.length_cons, Nat.succ_le_succ_iff] at hs
        cases hmatch : isPrefixBy eqv2 pat2 (c :: cs) with
        | true =>
          rw [replaceAllByAux_cons_pos eqv2 pat2 rep2 hmatch]
          have hpast := hasSubstrExact_drop_of_match eqv2 hu pat2 (c :: cs) hav hmatch hocc
          have hlen : (c :: cs).drop pat2.length = cs.drop (pat2.length - 1) := by
            cases pat2 with
            | nil => exact absurd rfl hpat2
            | cons p ps => simp
          rw [hlen] at hpast
          have hx := ih (cs.drop (pat2.length - 1))
            (le_trans (by simpa using List.length_drop_le _ _) hs) hpast
          exact hasSubstrBy_append_right exEq hx rep2
        | false =>
          rw [replaceAllByAux_cons_neg eqv2 pat2 rep2 hmatch]
          rw [hasSubstrBy_cons_eq, Bool.or_eq_true] at hocc ⊢
          rcases hocc with hocc | hocc
          · left
            have := isPrefixExact_replaceAllAux eqv2 pat2 rep2 hpat2 u (c :: cs) hav hocc
            rwa [replaceAllByAux_cons_neg eqv2 pat2 rep2 hmatch] at this
          · right
            exact ih cs hs hocc
  intro s
  exact main s.length s le_rfl

/-- Whenever the pattern occurs, the replacement marker occurs in the result. -/
theorem rep_hasSubstr_replaceAllAux (eqv : Char → Char → Bool)
    (pat rep : List Char) (hpat : pat ≠ []) :
    ∀ s : List Char, hasSubstrBy eqv pat s = true →
      hasSubstrBy exEq rep (replaceAllByAux eqv pat rep s) = true := by
  intro s
  induction s with
  | nil =>
    intro h
    rw [hasSubstrBy_nil_of_ne_nil eqv hpat] at h
    exact absurd h (by simp)
  | cons c cs ih =>
    intro h
    cases hmatch : isPrefixBy eqv pat (c :: cs) with
    | true =>
      rw [replaceAllByAux_cons_pos eqv pat rep hmatch]
      cases rep with
      | nil =>
        cases hres : replaceAllByAux eqv pat [] (cs.drop (pat.length - 1)) with
        | nil => rfl
        | cons x xs => simp [hasSubstrBy, isPrefixBy_nil]
      | cons r0 rs =>
        have hp : isPrefixBy exEq (r0 :: rs) ((r0 :: rs) ++
            replaceAllByAux eqv pat (r0 :: rs) (cs.drop (pat.length - 1))) = true :=
          isPrefixBy_exEq_append _ _
        rw [List.cons_append] at hp ⊢
        rw [hasSubstrBy_cons_eq, hp]
        simp
    | false =>
      rw [hasSubstrBy_cons_eq, hmatch, Bool.false_or] at h
      rw [replaceAllByAux_cons_neg eqv pat rep hmatch, hasSubstrBy_cons_eq, ih h]
      simp

/-- The scanner passes unchanged through a segment `u` at no position of which
a match starts. -/
theorem replaceAllByAux_passthrough (eqv2 : Char → Char → Bool) (pat2 rep2 : List Char) :
    ∀ (u rest : List Char),
      (∀ n, n < u.length → isPrefixBy eqv2 pat2 (u.drop n ++ rest) = false) →
      replaceAllByAux eqv2 pat2 rep2 (u ++ rest) =
        u ++ replaceAllByAux eqv2 pat2 rep2 rest := by
  intro u
  induction u with
  | nil => intro rest _; rw [List.nil_append, List.nil_append]
  | cons c cs ih =>
    intro rest h
    have h0 : isPrefixBy eqv2 pat2 (c :: (cs ++ rest)) = false := by
      have := h 0 (by simp)
      simpa using this
    rw [List.cons_append, replaceAllByAux_cons_neg eqv2 pat2 rep2 h0]
    rw [ih rest (fun n hn => by
      have := h (n + 1) (by simpa using Nat.succ_lt_succ hn)
      simpa using this)]
    rfl

/-- Segment survival: if the text decomposes as `a ++ (p ++ b)` and no match
of `pat2` intersects the `p` segment (none starts in `a` and reaches into `p`,
none starts inside `p`), then `p` still occurs verbatim after replacing every
match of `pat2`. -/
theorem segment_survives_replaceAllAux (eqv2 : Char → Char → Bool)
    (pat2 rep2 : List Char) (hpat2 : pat2 ≠ []) {p : List Char} (hp : p ≠ [])
    (b : List Char) :
    ∀ a : List Char,
      (∀ n, n < a.length → a.length - n < pat2.length →
        isPrefixBy eqv2 pat2 (a.drop n ++ (p ++ b)) = false) →
      (∀ n, n < p.length → isPrefixBy eqv2 pat2 (p.drop n ++ b) = false) →
      hasSubstrBy exEq p (replaceAllByAux eqv2 pat2 rep2 (a ++ (p ++ b))) = true := by
  have hbase : (∀ n, n < p.length → isPrefixBy eqv2 pat2 (p.drop n ++ b) = false) →
      hasSubstrBy exEq p (replaceAllByAux eqv2 pat2 rep2 (p ++ b)) = true := by
    intro hu
    rw [replaceAllByAux_passthrough eqv2 pat2 rep2 p b hu]
    cases p with
    | nil => exact absurd rfl hp
    | cons q qs =>
      rw [List.cons_append, hasSubstrBy_cons_eq]
      have hpre := isPrefixBy_exEq_append (q :: qs) (replaceAllByAux eqv2 pat2 rep2 b)
      rw [List.cons_append] at hpre
      rw [hpre]
      simp
  have main : ∀ N : ℕ, ∀ a : List Char, a.length ≤ N →
      (∀ n, n < a.length → a.length - n < pat2.length →
        isPrefixBy eqv2 pat2 (a.drop n ++ (p ++ b)) = false) →
      (∀ n, n < p.length → isPrefixBy eqv2 pat2 (p.drop n ++ b) = false) →
      hasSubstrBy exEq p (replaceAllByAux eqv2 pat2 rep2 (a ++ (p ++ b))) = true := by
    intro N
    induction N with
    | zero =>
      intro a ha0 _ hu
      rw [List.length_eq_zero.mp (Nat.le_zero.mp ha0), List.nil_append]
      exact hbase hu
    | succ N ih =>
      intro a haN ha hu
      cases a with
      | nil =>
        rw [List.nil_append]
        exact hbase hu
      | cons c a' =>
        rw [List.cons_append]
        cases hmatch : isPrefixBy eqv2 pat2 (c :: (a' ++ (p ++ b))) with
        | false =>
          rw [replaceAllByAux_cons_neg eqv2 pat2 rep2 hmatch, hasSubstrBy_cons_eq]
          have htail := ih a' (by
              rw [List.length_cons] at haN
              omega)
            (fun n hn hshort => by
              have hm := ha (n + 1) (by rw [List.length_cons]; omega)
                (by rw [List.length_cons]; omega)
              simpa using hm)
            hu
          rw [htail]
          simp
        | true =>
          have hlen : pat2.length ≤ a'.length + 1 := by
            by_contra hgt
            push_neg at hgt
            have h0 := ha 0 (by simp) (by rw [List.length_cons]; omega)
            rw [List.drop_zero, List.cons_append] at h0
            rw [h0] at hmatch
            exact Bool.false_ne_true hmatch
          rw [replaceAllByAux_cons_pos eqv2 pat2 rep2 hmatch]
          have hdropsplit : (a' ++ (p ++ b)).drop (pat2.length - 1)
              = a'.drop (pat2.length - 1) ++ (p ++ b) := by
            rw [List.drop_append_eq_append_drop]
            have hz : pat2.length - 1 - a'.length = 0 := by omega
            rw [hz, List.drop_zero]
          rw [hdropsplit]
          have hrec := ih (a'.drop (pat2.length - 1))
            (by
              rw [List.length_drop]
              rw [List.length_cons] at haN
              omega)
            (fun n hn hshort => by
              rw [List.length_drop] at hn hshort
              have hm := ha (n + (pat2.length - 1) + 1)
                (by rw [List.length_cons]; omega)
                (by rw [List.length_cons]; omega)
              have hdd : (c :: a').drop (n + (pat2.length - 1) + 1) =
                  (a'.drop (pat2.length - 1)).drop n := by
                rw [List.drop_succ_cons, List.drop_drop, Nat.add_comm n (pat2.length - 1)]
              rw [hdd] at hm
              exact hm)
            hu
          exact hasSubstrBy_append_right exEq hrec rep2
  intro a
  exact main a.length a le_rfl

/-! ## Embedding of `EnhancedPIIExtractorService.sanitize_text_for_llm` -/

/-- The email placeholder marker inserted by `sanitize_text_for_llm`. -/
def EMAIL_REMOVED : List Char := "[EMAIL_REMOVED]".toList

/-- The phone placeholder marker inserted by `sanitize_text_for_llm`. -/
def PHONE_REMOVED : List Char := "[PHONE_REMOVED]".toList

/-- The name placeholder marker inserted by `sanitize_text_for_llm`. -/
def NAME_REMOVED : List Char := "[NAME_REMOVED]".toList

/-- The `pii_data` argument of `sanitize_text_for_llm`: each field is either
absent (Python `None`) or an extracted string. -/
structure PIIResult where
  name : Option (List Char)
  email : Option (List Char)
  phone : Option (List Char)

/-- Python `str.split()` with no argument (used on the extracted name):
split on whitespace runs, dropping empty pieces.  `acc` is the current token,
reversed. -/
def pySplitAux : List Char → List Char → List (List Char)
  | [], acc => if acc.isEmpty then [] else [acc.reverse]
  | c :: cs, acc =>
    if c.isWhitespace then
      if acc.isEmpty then pySplitAux cs [] else acc.reverse :: pySplitAux cs []
    else pySplitAux cs (c :: acc)

/-- Python `str.split()` on a character list. -/
def pySplit (s : List Char) : List (List Char) := pySplitAux s []

/-- The phone normalisation `re.sub(r'[^\d+]', '', phone)` used by the
sanitizer: keep only ASCII digits and the plus sign. -/
def phoneDigits (p : List Char) : List Char :=
  p.filter (fun c => c.isDigit || c == '+')

/-- The email block of `sanitize_text_for_llm`: if an email was resolved
(non-null, non-empty by Python truthiness), replace it case-insensitively
everywhere by `[EMAIL_REMOVED]`. -/
def emailStep (emailOpt : Option (List Char)) (t : List Char) : List Char :=
  match emailOpt with
  | some e => if e.isEmpty then t else replaceAllBy ciEq e EMAIL_REMOVED t
  | none => t

/-- The phone block of `sanitize_text_for_llm`: replace the resolved phone
exactly (all occurrences) by `[PHONE_REMOVED]`; then, if the digits-and-plus
normalisation differs from the phone and occurs in the intermediate text,
replace it too. -/
def phoneStep (phoneOpt : Option (List Char)) (t : List Char) : List Char :=
  match phoneOpt with
  | some p =>
    if p.isEmpty then t
    else
      let pd := phoneDigits p
      let t2 := replaceAllBy exEq p PHONE_REMOVED t
      if pd ≠ p ∧ hasSubstrBy exEq pd t2 = true then
        replaceAllBy exEq pd PHONE_REMOVED t2
      else t2
  | none => t

/-- The name block of `sanitize_text_for_llm`: replace each
whitespace-separated token of the resolved name that is longer than 2
characters, case-insensitively, by `[NAME_REMOVED]`; shorter tokens are left
untouched. -/
def nameStep (nameOpt : Option (List Char)) (t : List Char) : List Char :=
  match nameOpt with
  | some nm =>
    if nm.isEmpty then t
    else
      (pySplit nm).foldl
        (fun acc part =>
          if 2 < part.length then replaceAllBy ciEq part NAME_REMOVED acc else acc)
        t
  | none => t

/-- Shallow embedding of `EnhancedPIIExtractorService.sanitize_text_for_llm`:
the email, phone and name blocks run in that order; absent (`None`) or empty
fields are skipped, mirroring Python truthiness; empty text returns at once. -/
def sanitize_text_for_llm (text : List Char) (pii : PIIResult) : List Char :=
  if text.isEmpty then text
  else nameStep pii.name (phoneStep pii.phone (emailStep pii.email text))

/-- C6: for every text, when PII resolution produced no email, no phone and no
name (all three fields `None`), `sanitize_text_for_llm` returns the input text
unchanged.  The embedding is a total function, so no combination of null
fields can raise: each missing field is skipped by the truthiness guards. -/
theorem sanitize_text_for_llm_all_none_noop (text : List Char) :
    sanitize_text_for_llm text ⟨none, none, none⟩ = text := by
  unfold sanitize_text_for_llm
  split <;> rfl

/-- The punctuation characters (besides digits) that can occur in a phone
string produced by the extractor's phone patterns. -/
def phonePunct : List Char := ['+', '-', '(', ')', '.', ' ']

theorem exEq_true_iff {a b : Char} : exEq a b = true ↔ a = b := by
  simp [exEq]

theorem phoneChar_ne {d x : Char} (hd : d.isDigit = true ∨ d ∈ phonePunct)
    (hx : x.isDigit = false) (hx2 : x ∉ phonePunct) : exEq d x = false := by
  cases he : exEq d x with
  | false => rfl
  | true =>
    have hdx : d = x := exEq_true_iff.mp he
    rcases hd with h | h
    · rw [hdx] at h
      rw [h] at hx
      exact absurd hx (by simp)
    · rw [hdx] at h
      exact absurd h hx2

theorem phoneChar_avoid_marker {d : Char} (hd : d.isDigit = true ∨ d ∈ phonePunct) :
    ∀ c ∈ EMAIL_REMOVED ++ PHONE_REMOVED ++ NAME_REMOVED, exEq d c = false := by
  intro c hc
  refine phoneChar_ne hd ?_ ?_
  · revert hc
    revert c
    decide
  · revert hc
    revert c
    decide

theorem phoneDigits_mem {p : List Char} {d : Char} (hd : d ∈ phoneDigits p) :
    d.isDigit = true ∨ d ∈ phonePunct := by
  have := (List.mem_filter.mp hd).2
  rcases Bool.or_eq_true_iff.mp this with h | h
  · exact Or.inl h
  · right
    have : d = '+' := by simpa using h
    rw [this]
    simp [phonePunct]

/-- C7 counterexample: the claim says sanitization "additionally replaces the
digit-only normalization of the phone if it differs and appears verbatim".
The code instead normalises with `re.sub(r'[^\d+]', '', phone)`, which keeps
`'+'`.  For the resolved phone `"+91 98765 43210"` (a labelled-pattern hit
validated by `_validate_phone`) and the text `"Call 919876543210 now"`, the
digit-only normalization `"919876543210"` differs from the phone and appears
verbatim, so by the claim it must be replaced; the code's kept-plus
normalization `"+919876543210"` does not occur, so the code replaces nothing:
the output equals the input, still contains the digit-only form, and contains
no phone placeholder. -/
theorem sanitize_digit_normalization_counterexample :
    sanitize_text_for_llm "Call 919876543210 now".toList
        ⟨none, none, some "+91 98765 43210".toList⟩ =
      "Call 919876543210 now".toList ∧
    ("+91 98765 43210".toList).filter Char.isDigit ≠ "+91 98765 43210".toList ∧
    hasSubstrBy exEq (("+91 98765 43210".toList).filter Char.isDigit)
      "Call 919876543210 now".toList = true ∧
    hasSubstrBy exEq PHONE_REMOVED
      (sanitize_text_for_llm "Call 919876543210 now".toList
        ⟨none, none, some "+91 98765 43210".toList⟩) = false := by
  refine ⟨by decide, by decide, by decide, by decide⟩

theorem EMAIL_REMOVED_shape :
    EMAIL_REMOVED = '[' :: ("EMAIL_REMOVED".toList ++ [']']) := by decide

theorem PHONE_REMOVED_shape :
    PHONE_REMOVED = '[' :: ("PHONE_REMOVED".toList ++ [']']) := by decide

theorem NAME_REMOVED_shape :
    NAME_REMOVED = '[' :: ("NAME_REMOVED".toList ++ [']']) := by decide

theorem pySplitAux_no_ws :
    ∀ (s acc : List Char), (∀ c ∈ s, c.isWhitespace = false) →
      (acc.isEmpty = false ∨ s ≠ []) →
      pySplitAux s acc = [acc.reverse ++ s] := by
  intro s
  induction s with
  | nil =>
    intro acc _ hne
    rcases hne with hne | hne
    · simp [pySplitAux, hne]
    · exact absurd rfl hne
  | cons c cs ih =>
    intro acc hws _
    have hc : c.isWhitespace = false := hws c (by simp)
    show (if c.isWhitespace then _ else pySplitAux cs (c :: acc)) = _
    rw [if_neg (by simp [hc])]
    rw [ih (c :: acc) (fun d hd => hws d (by simp [hd])) (Or.inl (by simp))]
    simp

/-- A whitespace-free name splits into a single token. -/
theorem pySplit_single {nm : List Char} (hne : nm ≠ [])
    (hws : ∀ c ∈ nm, c.isWhitespace = false) : pySplit nm = [nm] := by
  unfold pySplit
  rw [pySplitAux_no_ws nm [] hws (Or.inr hne)]
  simp

theorem emailStep_none (t : List Char) : emailStep none t = t := rfl

theorem phoneStep_none (t : List Char) : phoneStep none t = t := rfl

theorem nameStep_none (t : List Char) : nameStep none t = t := rfl

theorem sanitize_text_for_llm_eval (text : List Char) (pii : PIIResult)
    (ht : text.isEmpty = false) :
    sanitize_text_for_llm text pii =
      nameStep pii.name (phoneStep pii.phone (emailStep pii.email text)) := by
  unfold sanitize_text_for_llm
  rw [if_neg (by simp [ht])]

theorem emailStep_some {e : List Char} (he : e ≠ []) (t : List Char) :
    emailStep (some e) t = replaceAllByAux ciEq e EMAIL_REMOVED t := by
  show (if e.isEmpty = true then t else replaceAllBy ciEq e EMAIL_REMOVED t) = _
  rw [if_neg (show ¬(e.isEmpty = true) by simpa using he),
    replaceAllBy_of_ne_nil ciEq EMAIL_REMOVED t he]

theorem phoneStep_some {p : List Char} (hp : p ≠ []) (t : List Char) :
    phoneStep (some p) t =
      (if phoneDigits p ≠ p ∧
          hasSubstrBy exEq (phoneDigits p) (replaceAllByAux exEq p PHONE_REMOVED t) = true then
        replaceAllBy exEq (phoneDigits p) PHONE_REMOVED
          (replaceAllByAux exEq p PHONE_REMOVED t)
      else replaceAllByAux exEq p PHONE_REMOVED t) := by
  show (if p.isEmpty = true then t
    else
      if phoneDigits p ≠ p ∧
          hasSubstrBy exEq (phoneDigits p) (replaceAllBy exEq p PHONE_REMOVED t) = true then
        replaceAllBy exEq (phoneDigits p) PHONE_REMOVED (replaceAllBy exEq p PHONE_REMOVED t)
      else replaceAllBy exEq p PHONE_REMOVED t) = _
  rw [if_neg (show ¬(p.isEmpty = true) by simpa using hp),
    replaceAllBy_of_ne_nil exEq PHONE_REMOVED t hp]

theorem nameStep_single {nm : List Char} (hnm : nm ≠ [])
    (hws : ∀ c ∈ nm, c.isWhitespace = false) (t : List Char) :
    nameStep (some nm) t =
      (if 2 < nm.length then replaceAllBy ciEq nm NAME_REMOVED t else t) := by
  show (if nm.isEmpty = true then t
    else (pySplit nm).foldl
      (fun acc part =>
        if 2 < part.length then replaceAllBy ciEq part NAME_REMOVED acc else acc) t) = _
  rw [if_neg (show ¬(nm.isEmpty = true) by simpa using hnm), pySplit_single hnm hws]
  simp only [List.foldl_cons, List.foldl_nil]

theorem nameStep_some {nm : List Char} (hnm : nm ≠ []) (t : List Char) :
    nameStep (some nm) t =
      (pySplit nm).foldl
        (fun acc part =>
          if 2 < part.length then replaceAllBy ciEq part NAME_REMOVED acc else acc) t := by
  show (if nm.isEmpty = true then t
    else (pySplit nm).foldl
      (fun acc part =>
        if 2 < part.length then replaceAllBy ciEq part NAME_REMOVED acc else acc) t) = _
  rw [if_neg (show ¬(nm.isEmpty = true) by simpa using hnm)]

/-- A bracket-free token that is absent from the running text and does not
occur inside the name placeholder stays absent through the name fold. -/
theorem name_foldl_preserve {t : List Char} (ht : t ≠ [])
    (h0 : ∀ d ∈ t, ciEq d '[' = false) (h1 : ∀ d ∈ t, ciEq d ']' = false)
    (hrep : hasSubstrBy ciEq t NAME_REMOVED = false) :
    ∀ (ts : List (List Char)) (acc : List Char),
      hasSubstrBy ciEq t acc = false →
      hasSubstrBy ciEq t
        (ts.foldl (fun acc part =>
          if 2 < part.length then replaceAllBy ciEq part NAME_REMOVED acc else acc) acc)
        = false := by
  intro ts
  induction ts with
  | nil => intro acc h; simpa using h
  | cons part ts' ih =>
    intro acc h
    simp only [List.foldl_cons]
    by_cases hlen : 2 < part.length
    · rw [if_pos hlen]
      refine ih _ ?_
      have hpartne : part ≠ [] := by
        intro hnil
        rw [hnil] at hlen
        simp at hlen
      rw [replaceAllBy_of_ne_nil ciEq NAME_REMOVED acc hpartne]
      have hpres := hasSubstrBy_replaceAllAux_preserve_false ciEq ciEq t part '['
        ("NAME_REMOVED".toList) ']' ht h0 h1
        (by rw [← NAME_REMOVED_shape]; exact hrep) acc h
      rw [← NAME_REMOVED_shape] at hpres
      exact hpres
    · rw [if_neg hlen]
      exact ih acc h

/-- Any bracket-free token of the name longer than 2 characters that does not
occur inside the name placeholder is absent after the name fold, whatever the
starting text: its own pass removes every occurrence, later passes preserve
the absence. -/
theorem name_foldl_token_removed {t : List Char} (hlen : 2 < t.length)
    (h0 : ∀ d ∈ t, ciEq d '[' = false) (h1 : ∀ d ∈ t, ciEq d ']' = false)
    (hrep : hasSubstrBy ciEq t NAME_REMOVED = false) :
    ∀ (ts : List (List Char)), t ∈ ts → ∀ acc : List Char,
      hasSubstrBy ciEq t
        (ts.foldl (fun acc part =>
          if 2 < part.length then replaceAllBy ciEq part NAME_REMOVED acc else acc) acc)
        = false := by
  have ht : t ≠ [] := by
    intro hnil
    rw [hnil] at hlen
    simp at hlen
  intro ts
  induction ts with
  | nil => intro hmem; simp at hmem
  | cons part ts' ih =>
    intro hmem acc
    simp only [List.foldl_cons]
    rcases List.mem_cons.mp hmem with heq | hmem'
    · subst heq
      rw [if_pos hlen]
      refine name_foldl_preserve ht h0 h1 hrep ts' _ ?_
      rw [replaceAllBy_of_ne_nil ciEq NAME_REMOVED acc ht]
      have hself := hasSubstrBy_replaceAllAux_self_false ciEq t '['
        ("NAME_REMOVED".toList) ']' ht h0 h1
        (by rw [← NAME_REMOVED_shape]; exact hrep) acc
      rw [← NAME_REMOVED_shape] at hself
      exact hself
    · exact ih hmem' _

/-- If every token of the name has length at most 2, the name fold is the
identity. -/
theorem name_foldl_all_short :
    ∀ (ts : List (List Char)), (∀ tk ∈ ts, tk.length ≤ 2) → ∀ acc : List Char,
      ts.foldl (fun acc part =>
        if 2 < part.length then replaceAllBy ciEq part NAME_REMOVED acc else acc) acc
        = acc := by
  intro ts
  induction ts with
  | nil => intro _ acc; rfl
  | cons part ts' ih =>
    intro hshort acc
    simp only [List.foldl_cons]
    rw [if_neg (by have := hshort part (by simp); omega)]
    exact ih (fun tk htk => hshort tk (by simp [htk])) acc

/-- C7 (amended): sanitization replaces all occurrences (not only the first)
of the resolved email, case-insensitively, and of the resolved phone, exactly
(case sensitivity is moot for the letter-free phone strings the extractor
resolves), with distinct placeholder tokens; it additionally replaces the
digits-and-plus normalisation of the phone (the code strips every character
other than digits and the plus sign, not every non-digit) when it differs
from the phone and appears in the intermediate text; and it processes each
whitespace-separated name token independently, removing every
case-insensitive occurrence of each token longer than 2 characters and
leaving the text unchanged when every token has length at most 2.  Hence for
a text containing the resolved email and containing the resolved phone at an
occurrence disjoint from every case-insensitive occurrence of the email
(hypotheses `htext`, `ha`, `hu`: the phone segment is intersected by no email
match; a phone occurrence swallowed by an overlapping email match is removed
with it), with no name resolved, the output contains no case-insensitive
occurrence of the email, no occurrence of the phone or of its digits-and-plus
normalisation, and contains both placeholder markers.  The remaining
hypotheses state the character classes that `_validate_email` /
`_validate_phone` and the extraction patterns guarantee: the email is
non-empty, contains an at sign and no bracket-like characters; the phone is
non-empty and consists of digits and phone punctuation with at least one
digit. -/
theorem sanitize_text_for_llm_redacts (text e p t0 t3 : List Char)
    (he_ne : e ≠ []) (hp_ne : p ≠ [])
    (he_in : hasSubstrBy ciEq e text = true)
    (htext : text = t0 ++ (p ++ t3))
    (ha : ∀ n, n < t0.length → t0.length - n < e.length →
      isPrefixBy ciEq e (t0.drop n ++ (p ++ t3)) = false)
    (hu : ∀ n, n < p.length → isPrefixBy ciEq e (p.drop n ++ t3) = false)
    (hat : '@' ∈ e)
    (he_brack : ∀ d ∈ e, ciEq d '[' = false ∧ ciEq d ']' = false)
    (hp_chars : ∀ d ∈ p, d.isDigit = true ∨ d ∈ phonePunct)
    (hp_digit : ∃ d ∈ p, d.isDigit = true) :
    hasSubstrBy ciEq e (sanitize_text_for_llm text ⟨none, some e, some p⟩) = false ∧
    hasSubstrBy exEq p (sanitize_text_for_llm text ⟨none, some e, some p⟩) = false ∧
    hasSubstrBy exEq (phoneDigits p) (sanitize_text_for_llm text ⟨none, some e, some p⟩) = false ∧
    hasSubstrBy exEq EMAIL_REMOVED (sanitize_text_for_llm text ⟨none, some e, some p⟩) = true ∧
    hasSubstrBy exEq PHONE_REMOVED (sanitize_text_for_llm text ⟨none, some e, some p⟩) = true ∧
    (∀ nm : List Char, nm ≠ [] →
      (∀ tk ∈ pySplit nm, 2 < tk.length →
        (∀ d ∈ tk, ciEq d '[' = false ∧ ciEq d ']' = false) →
        hasSubstrBy ciEq tk NAME_REMOVED = false →
        hasSubstrBy ciEq tk (sanitize_text_for_llm text ⟨some nm, none, none⟩) = false) ∧
      ((∀ tk ∈ pySplit nm, tk.length ≤ 2) →
        sanitize_text_for_llm text ⟨some nm, none, none⟩ = text)) := by
  -- the text is non-empty, since the non-empty email occurs in it
  have htne : text.isEmpty = false := by
    cases text with
    | nil =>
      rw [hasSubstrBy_nil_of_ne_nil ciEq he_ne] at he_in
      exact absurd he_in (by simp)
    | cons c cs => rfl
  -- character-class facts about the fixed markers
  have hER : ∀ c ∈ EMAIL_REMOVED, c.isDigit = false ∧ c ∉ phonePunct := by decide
  have hPR : ∀ c ∈ PHONE_REMOVED, c.isDigit = false ∧ c ∉ phonePunct := by decide
  have heSpecE : ∀ c ∈ EMAIL_REMOVED, ciEq '@' c = false := by decide
  have heSpecP : ∀ c ∈ PHONE_REMOVED, ciEq '@' c = false := by decide
  have he0 : ∀ d ∈ e, ciEq d '[' = false := fun d hd => (he_brack d hd).1
  have he1 : ∀ d ∈ e, ciEq d ']' = false := fun d hd => (he_brack d hd).2
  have hp0 : ∀ d ∈ p, exEq d '[' = false :=
    fun d hd => phoneChar_ne (hp_chars d hd) (by decide) (by decide)
  have hp1 : ∀ d ∈ p, exEq d ']' = false :=
    fun d hd => phoneChar_ne (hp_chars d hd) (by decide) (by decide)
  have hpSpec : ∃ d ∈ p, ∀ c ∈ PHONE_REMOVED, exEq d c = false := by
    obtain ⟨d, hd, hdig⟩ := hp_digit
    exact ⟨d, hd, fun c hc => phoneChar_ne (Or.inl hdig) (hPR c hc).1 (hPR c hc).2⟩
  have hpd_chars : ∀ d ∈ phoneDigits p, d.isDigit = true ∨ d ∈ phonePunct :=
    fun d hd => phoneDigits_mem hd
  have hpd_ne : phoneDigits p ≠ [] := by
    obtain ⟨d, hd, hdig⟩ := hp_digit
    have hmem : d ∈ phoneDigits p := List.mem_filter.mpr ⟨hd, by simp [hdig]⟩
    intro hnil
    rw [hnil] at hmem
    simp at hmem
  have hpd0 : ∀ d ∈ phoneDigits p, exEq d '[' = false :=
    fun d hd => phoneChar_ne (hpd_chars d hd) (by decide) (by decide)
  have hpd1 : ∀ d ∈ phoneDigits p, exEq d ']' = false :=
    fun d hd => phoneChar_ne (hpd_chars d hd) (by decide) (by decide)
  have hpdSpec : ∃ d ∈ phoneDigits p, ∀ c ∈ PHONE_REMOVED, exEq d c = false := by
    obtain ⟨d, hd, hdig⟩ := hp_digit
    exact ⟨d, List.mem_filter.mpr ⟨hd, by simp [hdig]⟩,
      fun c hc => phoneChar_ne (Or.inl hdig) (hPR c hc).1 (hPR c hc).2⟩
  have hERne : EMAIL_REMOVED ≠ [] := by decide
  have hPRne : PHONE_REMOVED ≠ [] := by decide
  have havE : ∀ cu ∈ EMAIL_REMOVED, ∀ d ∈ p, exEq d cu = false :=
    fun cu hcu d hd => phoneChar_ne (hp_chars d hd) (hER cu hcu).1 (hER cu hcu).2
  have havEpd : ∀ cu ∈ EMAIL_REMOVED, ∀ d ∈ phoneDigits p, exEq d cu = false :=
    fun cu hcu d hd => phoneChar_ne (hpd_chars d hd) (hER cu hcu).1 (hER cu hcu).2
  have havP : ∀ cu ∈ PHONE_REMOVED, ∀ d ∈ phoneDigits p, exEq d cu = false :=
    fun cu hcu d hd => phoneChar_ne (hpd_chars d hd) (hPR cu hcu).1 (hPR cu hcu).2
  -- absence of the tracked strings from the fixed markers
  have heAbsE : hasSubstrBy ciEq e EMAIL_REMOVED = false :=
    hasSubstrBy_special_false ciEq ⟨'@', hat, heSpecE⟩
  have heAbsP : hasSubstrBy ciEq e PHONE_REMOVED = false :=
    hasSubstrBy_special_false ciEq ⟨'@', hat, heSpecP⟩
  have hpAbsP : hasSubstrBy exEq p PHONE_REMOVED = false :=
    hasSubstrBy_special_false exEq hpSpec
  have hpdAbsP : hasSubstrBy exEq (phoneDigits p) PHONE_REMOVED = false :=
    hasSubstrBy_special_false exEq hpdSpec
  -- the phone segment survives the email replacement: no email match
  -- intersects it, by hypotheses `ha` and `hu`
  have P1 : hasSubstrBy exEq p (replaceAllByAux ciEq e EMAIL_REMOVED text) = true := by
    rw [htext]
    exact segment_survives_replaceAllAux ciEq e EMAIL_REMOVED he_ne hp_ne t3 t0 ha hu
  -- the three intermediate texts
  set E1 := replaceAllByAux ciEq e EMAIL_REMOVED text with hE1
  set T := replaceAllByAux exEq p PHONE_REMOVED E1 with hT
  have A1 : hasSubstrBy ciEq e E1 = false := by
    have h := hasSubstrBy_replaceAllAux_self_false ciEq e '[' ("EMAIL_REMOVED".toList) ']'
      he_ne he0 he1 (by rw [← EMAIL_REMOVED_shape]; exact heAbsE) text
    rw [← EMAIL_REMOVED_shape] at h
    exact h
  have M1 : hasSubstrBy exEq EMAIL_REMOVED E1 = true :=
    rep_hasSubstr_replaceAllAux ciEq e EMAIL_REMOVED he_ne text he_in
  have A2 : hasSubstrBy exEq p T = false := by
    have h := hasSubstrBy_replaceAllAux_self_false exEq p '[' ("PHONE_REMOVED".toList) ']'
      hp_ne hp0 hp1 (by rw [← PHONE_REMOVED_shape]; exact hpAbsP) E1
    rw [← PHONE_REMOVED_shape] at h
    exact h
  have A1T : hasSubstrBy ciEq e T = false := by
    have h := hasSubstrBy_replaceAllAux_preserve_false ciEq exEq e p '['
      ("PHONE_REMOVED".toList) ']' he_ne he0 he1
      (by rw [← PHONE_REMOVED_shape]; exact heAbsP) E1 A1
    rw [← PHONE_REMOVED_shape] at h
    exact h
  have M2 : hasSubstrBy exEq EMAIL_REMOVED T = true :=
    hasSubstrExact_replaceAllAux_preserved exEq p PHONE_REMOVED hp_ne hERne havE E1 M1
  have N2 : hasSubstrBy exEq PHONE_REMOVED T = true :=
    rep_hasSubstr_replaceAllAux exEq p PHONE_REMOVED hp_ne E1 P1
  -- evaluate the sanitizer on this PII result
  have hsan : sanitize_text_for_llm text ⟨none, some e, some p⟩ =
      (if phoneDigits p ≠ p ∧ hasSubstrBy exEq (phoneDigits p) T = true then
        replaceAllByAux exEq (phoneDigits p) PHONE_REMOVED T
      else T) := by
    rw [sanitize_text_for_llm_eval text _ htne]
    show nameStep none (phoneStep (some p) (emailStep (some e) text)) = _
    rw [nameStep_none, emailStep_some he_ne, phoneStep_some hp_ne]
    rw [replaceAllBy_of_ne_nil exEq PHONE_REMOVED _ hpd_ne]
  refine ⟨?_, ?_, ?_, ?_, ?_, ?_⟩
  · rw [hsan]
    by_cases hc : phoneDigits p ≠ p ∧ hasSubstrBy exEq (phoneDigits p) T = true
    · rw [if_pos hc]
      have h := hasSubstrBy_replaceAllAux_preserve_false ciEq exEq e (phoneDigits p) '['
        ("PHONE_REMOVED".toList) ']' he_ne he0 he1
        (by rw [← PHONE_REMOVED_shape]; exact heAbsP) T A1T
      rw [← PHONE_REMOVED_shape] at h
      exact h
    · rw [if_neg hc]; exact A1T
  · rw [hsan]
    by_cases hc : phoneDigits p ≠ p ∧ hasSubstrBy exEq (phoneDigits p) T = true
    · rw [if_pos hc]
      have h := hasSubstrBy_replaceAllAux_preserve_false exEq exEq p (phoneDigits p) '['
        ("PHONE_REMOVED".toList) ']' hp_ne hp0 hp1
        (by rw [← PHONE_REMOVED_shape]; exact hpAbsP) T A2
      rw [← PHONE_REMOVED_shape] at h
      exact h
    · rw [if_neg hc]; exact A2
  · rw [hsan]
    by_cases hc : phoneDigits p ≠ p ∧ hasSubstrBy exEq (phoneDigits p) T = true
    · rw [if_pos hc]
      have h := hasSubstrBy_replaceAllAux_self_false exEq (phoneDigits p) '['
        ("PHONE_REMOVED".toList) ']' hpd_ne hpd0 hpd1
        (by rw [← PHONE_REMOVED_shape]; exact hpdAbsP) T
      rw [← PHONE_REMOVED_shape] at h
      exact h
    · rw [if_neg hc]
      rcases not_and_or.mp hc with h | h
      · have hpd : phoneDigits p = p := by
          by_contra hne
          exact h hne
        rw [hpd]
        exact A2
      · simpa using h
  · rw [hsan]
    by_cases hc : phoneDigits p ≠ p ∧ hasSubstrBy exEq (phoneDigits p) T = true
    · rw [if_pos hc]
      exact hasSubstrExact_replaceAllAux_preserved exEq (phoneDigits p) PHONE_REMOVED
        hpd_ne hERne havEpd T M2
    · rw [if_neg hc]; exact M2
  · rw [hsan]
    by_cases hc : phoneDigits p ≠ p ∧ hasSubstrBy exEq (phoneDigits p) T = true
    · rw [if_pos hc]
      exact hasSubstrExact_replaceAllAux_preserved exEq (phoneDigits p) PHONE_REMOVED
        hpd_ne hPRne havP T N2
    · rw [if_neg hc]; exact N2
  · intro nm hnm
    have hname : sanitize_text_for_llm text ⟨some nm, none, none⟩ =
        (pySplit nm).foldl
          (fun acc part =>
            if 2 < part.length then replaceAllBy ciEq part NAME_REMOVED acc else acc)
          text := by
      rw [sanitize_text_for_llm_eval text _ htne]
      show nameStep (some nm) (phoneStep none (emailStep none text)) = _
      rw [phoneStep_none, emailStep_none, nameStep_some hnm]
    constructor
    · intro tk htk hlen hbr habs
      rw [hname]
      exact name_foldl_token_removed hlen (fun d hd => (hbr d hd).1)
        (fun d hd => (hbr d hd).2) habs (pySplit nm) htk text
    · intro hshort
      rw [hname]
      exact name_foldl_all_short (pySplit nm) hshort text

/-- Witness for C7: a concrete text containing the digit-bearing resolved
email `john1990@gmail.com` and, at a disjoint occurrence, the dotted resolved
phone `123.456.7890` (their character sets overlap on digits and the dot);
after sanitization neither occurs and both placeholder markers do; the
two-token name `John Smith` loses every case-insensitive occurrence of
`John`, and the all-short name `Jo Li` leaves the text unchanged. -/
theorem sanitize_text_for_llm_redacts_witness :
    "Contact john1990@gmail.com or 123.456.7890 now".toList =
      "Contact john1990@gmail.com or ".toList ++
        ("123.456.7890".toList ++ " now".toList) ∧
    hasSubstrBy ciEq "john1990@gmail.com".toList
      (sanitize_text_for_llm "Contact john1990@gmail.com or 123.456.7890 now".toList
        ⟨none, some "john1990@gmail.com".toList, some "123.456.7890".toList⟩) = false ∧
    hasSubstrBy exEq "123.456.7890".toList
      (sanitize_text_for_llm "Contact john1990@gmail.com or 123.456.7890 now".toList
        ⟨none, some "john1990@gmail.com".toList, some "123.456.7890".toList⟩) = false ∧
    hasSubstrBy exEq EMAIL_REMOVED
      (sanitize_text_for_llm "Contact john1990@gmail.com or 123.456.7890 now".toList
        ⟨none, some "john1990@gmail.com".toList, some "123.456.7890".toList⟩) = true ∧
    hasSubstrBy exEq PHONE_REMOVED
      (sanitize_text_for_llm "Contact john1990@gmail.com or 123.456.7890 now".toList
        ⟨none, some "john1990@gmail.com".toList, some "123.456.7890".toList⟩) = true ∧
    hasSubstrBy ciEq "John".toList
      (sanitize_text_for_llm "Contact john1990@gmail.com or 123.456.7890 now".toList
        ⟨some "John Smith".toList, none, none⟩) = false ∧
    sanitize_text_for_llm "Contact john1990@gmail.com or 123.456.7890 now".toList
      ⟨some "Jo Li".toList, none, none⟩ =
      "Contact john1990@gmail.com or 123.456.7890 now".toList := by
  have h := sanitize_text_for_llm_redacts
    "Contact john1990@gmail.com or 123.456.7890 now".toList
    "john1990@gmail.com".toList "123.456.7890".toList
    "Contact john1990@gmail.com or ".toList " now".toList
    (by decide) (by decide) (by decide) (by decide) (by decide) (by decide)
    (by decide) (by decide) (by decide) (by decide)
  refine ⟨by decide, h.1, h.2.1, h.2.2.2.1, h.2.2.2.2.1, ?_, ?_⟩
  · exact (h.2.2.2.2.2 "John Smith".toList (by decide)).1 "John".toList
      (by decide) (by decide) (by decide) (by decide)
  · exact (h.2.2.2.2.2 "Jo Li".toList (by decide)).2 (by decide)

/-! ## Embedding of `CandidateService._calculate_match_score` and
`CandidateService._get_matching_skills` -/

/-- The fields of the relational `Candidate` model read by the match scorer.
`experience_years` is the integer column (default 0); the other columns are
nullable. -/
structure Candidate where
  skills : Option (List String)
  experience_years : Int
  location : Option String
  resume_text : Option String

/-- The structured criteria dict consumed by `_calculate_match_score`:
optional skill list, experience bounds, location and keyword list.
`experience_max` is carried because the spec claims it takes part in
scoring; the scorer itself never reads it. -/
structure Criteria where
  skills : Option (List String)
  experience_min : Option Int
  experience_max : Option Int
  location : Option String
  keywords : Option (List String)

/-- Python truthiness of an optional list value (absent, `None` and `[]` are
falsy). -/
def truthyList (o : Option (List String)) : Bool :=
  match o with
  | some l => !l.isEmpty
  | none => false

/-- Python truthiness of an optional string value. -/
def truthyStr (o : Option String) : Bool :=
  match o with
  | some s => !(s == "")
  | none => false

/-- Python truthiness of an optional integer value (absent, `None` and `0`
are falsy). -/
def truthyInt (o : Option Int) : Bool :=
  match o with
  | some n => !(n == 0)
  | none => false

/-- Python `str.lower()` (ASCII case folding), computed character-wise. -/
def pyLower (s : String) : String := ⟨s.data.map Char.toLower⟩

/-- Python `needle.lower() in hay.lower()`. -/
def pyInLower (needle hay : String) : Bool :=
  hasSubstrBy exEq (pyLower needle).data (pyLower hay).data

/-- Shallow embedding of `CandidateService._calculate_match_score`: skills
(40), experience (30), location (20) and keyword (10) components summed and
capped at 100, with Python float arithmetic modelled exactly over `ℚ`. -/
def calculate_match_score (candidate : Candidate) (criteria : Criteria) : ℚ :=
  let skillScore : ℚ :=
    if truthyList criteria.skills && truthyList candidate.skills then
      let cs := criteria.skills.getD []
      let ks := candidate.skills.getD []
      (((cs.toFinset ∩ ks.toFinset).card : ℚ) / (cs.length : ℚ)) * 40
    else 0
  let expScore : ℚ :=
    if truthyInt criteria.experience_min &&
        decide (criteria.experience_min.getD 0 ≤ candidate.experience_years) then
      30
    else 0
  let locScore : ℚ :=
    if truthyStr criteria.location && truthyStr candidate.location &&
        pyInLower (criteria.location.getD "") (candidate.location.getD "") then
      20
    else 0
  let keywordScore : ℚ :=
    if truthyList criteria.keywords && truthyStr candidate.resume_text then
      let kws := criteria.keywords.getD []
      (((kws.filter
          (fun kw => pyInLower kw (candidate.resume_text.getD ""))).length : ℚ) /
        (kws.length : ℚ)) * 10
    else 0
  min (skillScore + expScore + locScore + keywordScore) 100

/-- Shallow embedding of `CandidateService._get_matching_skills`.  The Python
code returns `list(set(criteria["skills"]) & set(candidate.skills))`, whose
element order is unspecified, so the result is modelled as the finite set of
common skills. -/
def get_matching_skills (candidate : Candidate) (criteria : Criteria) :
    Finset String :=
  if !truthyList criteria.skills || !truthyList candidate.skills then ∅
  else (criteria.skills.getD []).toFinset ∩ (candidate.skills.getD []).toFinset

/-- The experience component as the spec describes it (claim C1): full 30
inside `[lo, hi]`, 5 points per year short below `lo` floored at 0, 2 bonus
points per year above `hi`. -/
def spec_experience_component (lo hi e : Int) : ℚ :=
  if lo ≤ e ∧ e ≤ hi then 30
  else if e < lo then max (30 - ((lo - e : ℤ) : ℚ) * 5) 0
  else 30 + ((e - hi : ℤ) : ℚ) * 2

/-- The skills component as the spec describes it (claim C2): the count of
criteria skills present in the candidate's skills after lower-casing both
sides, over the number of criteria skills, times 40. -/
def spec_skills_component (cs ks : List String) : ℚ :=
  if cs = [] ∨ ks = [] then 0
  else
    (((cs.filter
        (fun c => (ks.map pyLower).contains (pyLower c))).length : ℚ) /
      (cs.length : ℚ)) * 40

/-- C1 (amended): the experience component of the match score is flat, not
piecewise linear: it contributes 30 exactly when `criteria.experience_min` is
present and non-zero (Python truthiness) and `candidate.experience_years` is
at least that minimum, and 0 otherwise.  There is no 5-point-per-year penalty
below the minimum, no 2-point-per-year bonus above the maximum, and
`experience_max` plays no role in scoring (the theorem quantifies over it and
the result does not depend on it). -/
theorem calculate_match_score_experience_flat (e : Int) (mlo mhi : Option Int) :
    calculate_match_score ⟨none, e, none, none⟩ ⟨none, mlo, mhi, none, none⟩ =
      (if truthyInt mlo && decide (mlo.getD 0 ≤ e) then (30 : ℚ) else 0) := by
  cases h : (truthyInt mlo && decide (mlo.getD 0 ≤ e)) with
  | true =>
    simp only [calculate_match_score, truthyList, truthyStr, Bool.false_and,
      Bool.and_false, if_false, h, if_true, Bool.false_eq_true]
    norm_num
  | false =>
    simp only [calculate_match_score, truthyList, truthyStr, Bool.false_and,
      Bool.and_false, if_false, h, Bool.false_eq_true]
    norm_num

/-- C1 counterexample: a candidate with 3 years of experience against bounds
`[5, 10]` and no other criteria.  The claim's formula gives an experience
component 30 - (5 - 3) * 5 = 20, so the total score would be 20; the code
scores 0 (the candidate is below the minimum, and the code awards the flat 30
only at or above it). -/
theorem calculate_match_score_experience_counterexample :
    calculate_match_score ⟨none, 3, none, none⟩ ⟨none, some 5, some 10, none, none⟩ = 0 ∧
    spec_experience_component 5 10 3 = 20 := by
  constructor
  · norm_num [calculate_match_score, truthyList, truthyInt, truthyStr]
  · norm_num [spec_experience_component, max_def]

/-- C2 (amended): with only a skill criterion, the skills component of the
match score equals the number of distinct criteria skills present verbatim in
the candidate's skills (case-sensitive exact string comparison via Python set
intersection - no lower-casing is applied) divided by the length of the
criteria skill list, times 40; if either list is empty the component is 0. -/
theorem calculate_match_score_skills_exact (ks cs : List String) :
    calculate_match_score ⟨some ks, 0, none, none⟩ ⟨some cs, none, none, none, none⟩ =
      (if cs.isEmpty || ks.isEmpty then 0
       else (((cs.toFinset ∩ ks.toFinset).card : ℚ) / (cs.length : ℚ)) * 40) := by
  cases hcs : cs.isEmpty with
  | true =>
    simp only [calculate_match_score, truthyList, truthyStr, truthyInt, Option.getD,
      hcs, Bool.not_true, Bool.false_and, Bool.and_false, if_false, Bool.true_or,
      if_true, Bool.false_eq_true]
    norm_num
  | false =>
    cases hks : ks.isEmpty with
    | true =>
      simp only [calculate_match_score, truthyList, truthyStr, truthyInt, Option.getD,
        hcs, hks, Bool.not_true, Bool.and_false, Bool.false_and, if_false, Bool.or_true,
        if_true, Bool.false_eq_true]
      norm_num
    | false =>
      simp only [calculate_match_score, truthyList, truthyStr, truthyInt, Option.getD,
        hcs, hks, Bool.not_false, Bool.and_self, Bool.false_and, Bool.and_false,
        if_true, if_false, Bool.or_self, Bool.false_eq_true]
      have hlen : 0 < cs.length := by
        cases cs with
        | nil => simp at hcs
        | cons a l => simp
      have hcard : ((cs.toFinset ∩ ks.toFinset).card : ℚ) ≤ (cs.length : ℚ) := by
        have h1 : (cs.toFinset ∩ ks.toFinset).card ≤ cs.toFinset.card :=
          Finset.card_le_card (Finset.inter_subset_left)
        have h2 : cs.toFinset.card ≤ cs.length := cs.toFinset_card_le
        exact_mod_cast le_trans h1 h2
      have hle : (((cs.toFinset ∩ ks.toFinset).card : ℚ) / (cs.length : ℚ)) * 40 ≤ 100 := by
        have h3 : (((cs.toFinset ∩ ks.toFinset).card : ℚ) / (cs.length : ℚ)) ≤ 1 := by
          rw [div_le_one (by exact_mod_cast hlen)]
          exact hcard
        nlinarith
      rw [add_zero, add_zero, add_zero, min_eq_left hle]

/-- C2 counterexample: candidate skills `["Python"]` against criteria skills
`["python"]` with no other criteria.  The claim's case-insensitive formula
gives 1/1 * 40 = 40; the code's case-sensitive set intersection is empty, so
the code scores 0. -/
theorem calculate_match_score_skills_case_counterexample :
    calculate_match_score ⟨some ["Python"], 0, none, none⟩
      ⟨some ["python"], none, none, none, none⟩ = 0 ∧
    spec_skills_component ["python"] ["Python"] = 40 := by
  constructor
  · have hcard : ((({"python"} : Finset String)) ∩ ({"Python"} : Finset String)).card = 0 := by
      decide
    norm_num [calculate_match_score, truthyList, truthyInt, truthyStr, hcard]
  · norm_num [spec_skills_component]
    decide

/-- C3 (amended): a skill belongs to the matching-skills result exactly when
it occurs verbatim (identical casing) in both the criteria skill list and the
candidate skill list.  The comparison is case-sensitive exact equality, and
the result is the unordered set intersection (`list(set(..) & set(..))`, whose
order Python leaves unspecified), so there is no case-insensitive match, no
candidate-casing resolution and no criteria ordering. -/
theorem get_matching_skills_mem_iff (s : String) (ks cs : List String) :
    (s ∈ get_matching_skills ⟨some ks, 0, none, none⟩
        ⟨some cs, none, none, none, none⟩) ↔ (s ∈ cs ∧ s ∈ ks) := by
  unfold get_matching_skills
  cases hcs : cs.isEmpty with
  | true =>
    have : cs = [] := by simpa using hcs
    subst this
    simp [truthyList]
  | false =>
    cases hks : ks.isEmpty with
    | true =>
      have : ks = [] := by simpa using hks
      subst this
      simp [truthyList]
    | false =>
      simp only [truthyList, hcs, hks, Bool.not_false, Bool.false_or, Bool.or_false,
        Bool.not_true, if_false, Bool.false_eq_true]
      simp [Finset.mem_inter, And.comm]

/-- C3 counterexample: candidate skill `"Python"` against required skill
`"python"` yields the empty set, not `["Python"]` as the claim states: the
exact-equality intersection does not relate the two casings. -/
theorem get_matching_skills_case_counterexample :
    get_matching_skills ⟨some ["Python"], 0, none, none⟩
        ⟨some ["python"], none, none, none, none⟩ = ∅ ∧
    ("Python" : String) ∉ get_matching_skills ⟨some ["Python"], 0, none, none⟩
        ⟨some ["python"], none, none, none, none⟩ := by
  refine ⟨by decide, by decide⟩

/-- C4 (amended): the match scorer returns `min(sum of the four weighted
components, 100)`, a rational (Python float) value; every component is
non-negative, so the result always lies in the interval `[0, 100]`, but it is
not floored to an integer. -/
theorem calculate_match_score_bounds (c : Candidate) (cr : Criteria) :
    0 ≤ calculate_match_score c cr ∧ calculate_match_score c cr ≤ 100 := by
  have hite : ∀ (b : Bool) (x : ℚ), 0 ≤ x → 0 ≤ (if b = true then x else 0) := by
    intro b x hx
    split
    · exact hx
    · exact le_refl 0
  unfold calculate_match_score
  constructor
  · refine le_min ?_ (by norm_num)
    refine add_nonneg (add_nonneg (add_nonneg ?_ ?_) ?_) ?_
    · exact hite _ _ (by positivity)
    · exact hite _ _ (by norm_num)
    · exact hite _ _ (by norm_num)
    · exact hite _ _ (by positivity)
  · exact min_le_right _ _

/-- C4 counterexample: a candidate matching 1 of 3 criteria skills scores
exactly 40/3, which is not an integer (it lies strictly between 13 and 14),
so the scorer does not return the floor of the component sum as the claim
states (the floor would be 13). -/
theorem calculate_match_score_not_integer_counterexample :
    calculate_match_score ⟨some ["a"], 0, none, none⟩
        ⟨some ["a", "b", "c"], none, none, none, none⟩ = 40 / 3 ∧
    ¬ (∃ n : ℤ, calculate_match_score ⟨some ["a"], 0, none, none⟩
        ⟨some ["a", "b", "c"], none, none, none, none⟩ = (n : ℚ)) := by
  have hval : calculate_match_score ⟨some ["a"], 0, none, none⟩
      ⟨some ["a", "b", "c"], none, none, none, none⟩ = 40 / 3 := by
    have hcard : ((({"a","b","c"} : Finset String)) ∩ ({"a"} : Finset String)).card = 1 := by
      decide
    norm_num [calculate_match_score, truthyList, truthyInt, truthyStr, hcard]
  refine ⟨hval, ?_⟩
  rintro ⟨n, hn⟩
  rw [hval] at hn
  have h1 : (13 : ℚ) < (n : ℚ) := by rw [← hn]; norm_num
  have h2 : (n : ℚ) < 14 := by rw [← hn]; norm_num
  have h3 : (13 : ℤ) < n := by exact_mod_cast h1
  have h4 : n < (14 : ℤ) := by exact_mod_cast h2
  omega

/-! ## Embedding of `EnhancedPIIExtractorService.extract_with_voting` -/

/-- The three PII fields resolved by the voting step. -/
inductive PIIField
  | name
  | email
  | phone
deriving DecidableEq

/-- The per-field hits of the four extraction methods feeding the voting
step: regex patterns, spaCy NER, structural header analysis and
context-window analysis (in the order the code collects them). -/
structure MethodHits where
  regex : Option String
  spacy : Option String
  structural : Option String
  context : Option String

/-- The confidence the combining loop attaches to a regex hit: 0.95 for
email and phone, 0.8 for name. -/
def regexConf : PIIField → ℚ
  | .email => 95 / 100
  | .phone => 95 / 100
  | .name => 8 / 10

/-- The fixed confidence of a spaCy NER hit. -/
def spacyConf : ℚ := 85 / 100

/-- The fixed confidence of a structural-analysis hit. -/
def structuralConf : ℚ := 9 / 10

/-- The fixed confidence of a context-window hit. -/
def contextConf : ℚ := 88 / 100

/-- The `if value:` collection guard: a truthy (non-null, non-empty) method
value contributes one `(value, confidence)` candidate, anything else none. -/
def toHit (v : Option String) (conf : ℚ) : List (String × ℚ) :=
  match v with
  | some s => if s = "" then [] else [(s, conf)]
  | none => []

/-- The candidate list `extract_with_voting` builds for one field, in
collection order regex, spaCy, structural, context. -/
def collect_candidates (f : PIIField) (h : MethodHits) : List (String × ℚ) :=
  toHit h.regex (regexConf f) ++ toHit h.spacy spacyConf ++
    toHit h.structural structuralConf ++ toHit h.context contextConf

/-- Python `max(candidates, key=lambda x: x[1])`: the first element whose
key is maximal (Python's `max` keeps the earlier element on ties). -/
def pyMaxByConf : List (String × ℚ) → Option (String × ℚ)
  | [] => none
  | x :: xs =>
    match pyMaxByConf xs with
    | none => some x
    | some y => if y.2 > x.2 then some y else some x

/-- The per-field resolution of `extract_with_voting`: the value of the
highest-confidence candidate, or `None` when there is no candidate. -/
def extract_with_voting_field (f : PIIField) (h : MethodHits) : Option String :=
  (pyMaxByConf (collect_candidates f h)).map Prod.fst

theorem pyMaxByConf_eq_none {l : List (String × ℚ)} :
    pyMaxByConf l = none ↔ l = [] := by
  cases l with
  | nil => simp [pyMaxByConf]
  | cons x xs =>
    simp only [pyMaxByConf]
    constructor
    · intro h
      cases hm : pyMaxByConf xs with
      | none => rw [hm] at h; simp at h
      | some y =>
        rw [hm] at h
        dsimp only at h
        by_cases hc : y.2 > x.2
        · rw [if_pos hc] at h; simp at h
        · rw [if_neg hc] at h; simp at h
    · intro h; simp at h

theorem pyMaxByConf_mem_le {l : List (String × ℚ)} {x : String × ℚ}
    (h : pyMaxByConf l = some x) : x ∈ l ∧ ∀ y ∈ l, y.2 ≤ x.2 := by
  induction l generalizing x with
  | nil => simp [pyMaxByConf] at h
  | cons a xs ih =>
    simp only [pyMaxByConf] at h
    cases hm : pyMaxByConf xs with
    | none =>
      rw [hm] at h
      dsimp only at h
      have hxs : xs = [] := pyMaxByConf_eq_none.mp hm
      subst hxs
      simp at h
      subst h
      simp
    | some b =>
      rw [hm] at h
      dsimp only at h
      obtain ⟨hbmem, hble⟩ := ih hm
      by_cases hc : b.2 > a.2
      · rw [if_pos hc] at h
        have hxb : x = b := by simpa using h.symm
        subst hxb
        refine ⟨by simp [hbmem], ?_⟩
        intro y hy
        rcases List.mem_cons.mp hy with hy | hy
        · rw [hy]; exact le_of_lt hc
        · exact hble y hy
      · rw [if_neg hc] at h
        have hxa : x = a := by simpa using h.symm
        subst hxa
        refine ⟨by simp, ?_⟩
        intro y hy
        rcases List.mem_cons.mp hy with hy | hy
        · rw [hy]
        · exact le_trans (hble y hy) (le_of_not_lt hc)

theorem pyMaxByConf_strict {l : List (String × ℚ)} {x : String × ℚ}
    (hpw : l.Pairwise (fun a b => a.2 ≠ b.2)) (h : pyMaxByConf l = some x) :
    ∀ y ∈ l, y = x ∨ y.2 < x.2 := by
  induction l generalizing x with
  | nil => simp [pyMaxByConf] at h
  | cons a xs ih =>
    rw [List.pairwise_cons] at hpw
    simp only [pyMaxByConf] at h
    cases hm : pyMaxByConf xs with
    | none =>
      rw [hm] at h
      dsimp only at h
      have hxs : xs = [] := pyMaxByConf_eq_none.mp hm
      subst hxs
      simp at h
      subst h
      simp
    | some b =>
      rw [hm] at h
      dsimp only at h
      obtain ⟨hbmem, hble⟩ := pyMaxByConf_mem_le hm
      by_cases hc : b.2 > a.2
      · rw [if_pos hc] at h
        have hxb : x = b := by simpa using h.symm
        subst hxb
        intro y hy
        rcases List.mem_cons.mp hy with hy | hy
        · right; rw [hy]; exact hc
        · exact ih hpw.2 hm y hy
      · rw [if_neg hc] at h
        have hxa : x = a := by simpa using h.symm
        subst hxa
        intro y hy
        rcases List.mem_cons.mp hy with hy | hy
        · left; exact hy
        · right
          rcases lt_or_eq_of_le (le_trans (hble y hy) (le_of_not_lt hc)) with h1 | h1
          · exact h1
          · exact absurd h1.symm (hpw.1 y hy)

theorem collect_candidates_pairwise (f : PIIField) (h : MethodHits) :
    (collect_candidates f h).Pairwise (fun a b => a.2 ≠ b.2) := by
  have htoHit : ∀ (v : Option String) (c : ℚ),
      toHit v c = [] ∨ ∃ s, toHit v c = [(s, c)] := by
    intro v c
    cases v with
    | none => left; rfl
    | some s =>
      by_cases hs : s = ""
      · left; simp [toHit, hs]
      · right; exact ⟨s, by simp [toHit, hs]⟩
  have hr : regexConf f ≠ spacyConf ∧ regexConf f ≠ structuralConf ∧
      regexConf f ≠ contextConf := by
    cases f <;> norm_num [regexConf, spacyConf, structuralConf, contextConf]
  have hs1 : spacyConf ≠ structuralConf := by
    norm_num [spacyConf, structuralConf]
  have hs2 : spacyConf ≠ contextConf := by
    norm_num [spacyConf, contextConf]
  have hs3 : structuralConf ≠ contextConf := by
    norm_num [structuralConf, contextConf]
  unfold collect_candidates
  rcases htoHit h.regex (regexConf f) with h1 | ⟨s1, h1⟩ <;>
    rcases htoHit h.spacy spacyConf with h2 | ⟨s2, h2⟩ <;>
    rcases htoHit h.structural structuralConf with h3 | ⟨s3, h3⟩ <;>
    rcases htoHit h.context contextConf with h4 | ⟨s4, h4⟩ <;>
    rw [h1, h2, h3, h4] <;>
    simp_all [List.pairwise_cons, hr.1, hr.2.1, hr.2.2, hs1, hs2, hs3]

theorem collect_candidates_fst_ne {f : PIIField} {h : MethodHits} :
    ∀ x ∈ collect_candidates f h, x.1 ≠ "" := by
  intro x hx
  have hmem : ∀ (v : Option String) (c : ℚ), x ∈ toHit v c → x.1 ≠ "" := by
    intro v c hv
    cases v with
    | none => simp [toHit] at hv
    | some s =>
      by_cases hs : s = ""
      · simp [toHit, hs] at hv
      · simp [toHit, hs] at hv
        rw [hv]
        exact hs
  unfold collect_candidates at hx
  rcases List.mem_append.mp hx with hx | hx4
  · rcases List.mem_append.mp hx with hx | hx3
    · rcases List.mem_append.mp hx with hx1 | hx2
      · exact hmem _ _ hx1
      · exact hmem _ _ hx2
    · exact hmem _ _ hx3
  · exact hmem _ _ hx4

/-- C5: for each field independently, the voting step selects among all
method hits the (value, confidence) pair with the strictly highest
confidence: the selected pair is a hit and every other hit has strictly lower
confidence (the confidences collected for one field are pairwise distinct, so
equal-confidence ties cannot occur and the stated first-seen tie-break is
vacuous); a field with zero hits resolves to null, and a resolved value is
never the empty string (empty hits are dropped by the truthiness guard). -/
theorem extract_with_voting_resolution (f : PIIField) (h : MethodHits) :
    (collect_candidates f h = [] → extract_with_voting_field f h = none) ∧
    (collect_candidates f h ≠ [] →
      ∃ v c, extract_with_voting_field f h = some v ∧
        (v, c) ∈ collect_candidates f h ∧
        ∀ p ∈ collect_candidates f h, p = (v, c) ∨ p.2 < c) ∧
    (∀ v, extract_with_voting_field f h = some v → v ≠ "") := by
  refine ⟨?_, ?_, ?_⟩
  · intro hnil
    unfold extract_with_voting_field
    rw [hnil]
    rfl
  · intro hne
    cases hm : pyMaxByConf (collect_candidates f h) with
    | none => exact absurd (pyMaxByConf_eq_none.mp hm) hne
    | some x =>
      refine ⟨x.1, x.2, ?_, ?_, ?_⟩
      · unfold extract_with_voting_field
        rw [hm]
        rfl
      · simpa using (pyMaxByConf_mem_le hm).1
      · intro p hp
        have := pyMaxByConf_strict (collect_candidates_pairwise f h) hm p hp
        simpa using this
  · intro v hv
    unfold extract_with_voting_field at hv
    cases hm : pyMaxByConf (collect_candidates f h) with
    | none => rw [hm] at hv; simp at hv
    | some x =>
      rw [hm] at hv
      have hx : x.1 = v := by simpa using hv
      rw [← hx]
      exact collect_candidates_fst_ne x (pyMaxByConf_mem_le hm).1

/-- Witness for C5: with a regex email hit `a@b.co` (confidence 0.95) and a
structural hit `x@y.co` (confidence 0.9), the candidate list is non-empty and
the resolution picks the strictly highest-confidence hit. -/
theorem extract_with_voting_resolution_witness :
    collect_candidates PIIField.email
        ⟨some "a@b.co", none, some "x@y.co", none⟩ ≠ [] ∧
    (∃ v c, extract_with_voting_field PIIField.email
        ⟨some "a@b.co", none, some "x@y.co", none⟩ = some v ∧
      (v, c) ∈ collect_candidates PIIField.email
        ⟨some "a@b.co", none, some "x@y.co", none⟩ ∧
      ∀ p ∈ collect_candidates PIIField.email
        ⟨some "a@b.co", none, some "x@y.co", none⟩, p = (v, c) ∨ p.2 < c) :=
  ⟨by decide,
    (extract_with_voting_resolution PIIField.email
      ⟨some "a@b.co", none, some "x@y.co", none⟩).2.1 (by decide)⟩

/-! ## Embedding of `CandidateService.create_candidate` -/

/-- A stored candidate row of the relational model; the `email` column
carries the model's unique constraint and is the only constrained column. -/
structure CandidateRow where
  name : Option String
  email : String
  phone : Option String
  skills : Option (List String)
  experience_years : Int
  location : Option String
  resume_text : Option String
  resume_filename : Option String
deriving DecidableEq

/-- The outcome of `create_candidate`: the new store contents together with
the response fields, or the defensive raise of the `IntegrityError` handler
when no candidate with the conflicting email can be found (unreachable when
the conflict came from the unique email column). -/
inductive CreateOutcome
  | ok (db : List CandidateRow) (message action : String) (candidate : CandidateRow)
  | raised
deriving DecidableEq

/-- Shallow embedding of `CandidateService.create_candidate` over a store
modelled as the list of rows in insertion order.  The insert raises
`IntegrityError` exactly when the unique email column is violated; the
handler rolls back (the store is unchanged), looks up the first existing row
with that email and returns it flagged `"exists"`; otherwise the new row is
appended and returned flagged `"created"`. -/
def create_candidate (db : List CandidateRow) (d : CandidateRow) : CreateOutcome :=
  if db.any (fun r => r.email == d.email) then
    match db.find? (fun r => r.email == d.email) with
    | some existing => .ok db "Candidate exists" "exists" existing
    | none => .raised
  else
    .ok (db ++ [d]) "Candidate created successfully" "created" d

/-- The store reached after one `create_candidate` call. -/
def applyCreate (db : List CandidateRow) (d : CandidateRow) : List CandidateRow :=
  match create_candidate db d with
  | .ok db2 _ _ _ => db2
  | .raised => db

/-- The store reached after a sequence of uploads. -/
def run_uploads (db : List CandidateRow) (ds : List CandidateRow) : List CandidateRow :=
  ds.foldl applyCreate db

/-- The number of stored rows holding the given email. -/
def countEmail (db : List CandidateRow) (x : String) : ℕ :=
  (db.filter (fun r => r.email == x)).length

theorem countEmail_eq_zero {db : List CandidateRow} {x : String} :
    countEmail db x = 0 ↔ ∀ r ∈ db, r.email ≠ x := by
  unfold countEmail
  rw [List.length_eq_zero, List.filter_eq_nil_iff]
  simp

theorem create_candidate_exists {db : List CandidateRow} {d : CandidateRow}
    (h : ∃ r ∈ db, r.email = d.email) :
    ∃ r, db.find? (fun q => q.email == d.email) = some r ∧
      create_candidate db d = CreateOutcome.ok db "Candidate exists" "exists" r := by
  have hany : db.any (fun r => r.email == d.email) = true := by
    rw [List.any_eq_true]
    obtain ⟨r, hr, he⟩ := h
    exact ⟨r, hr, by simp [he]⟩
  have hsome : (db.find? (fun q => q.email == d.email)).isSome = true := by
    rw [List.find?_isSome]
    obtain ⟨r, hr, he⟩ := h
    exact ⟨r, hr, by simp [he]⟩
  obtain ⟨r, hr⟩ := Option.isSome_iff_exists.mp hsome
  refine ⟨r, hr, ?_⟩
  unfold create_candidate
  rw [if_pos hany, hr]

theorem applyCreate_countEmail (cur : List CandidateRow) (d2 : CandidateRow)
    (x : String) (hx : d2.email = x) :
    countEmail (applyCreate cur d2) x =
      (if countEmail cur x = 0 then 1 else countEmail cur x) := by
  by_cases h0 : countEmail cur x = 0
  · rw [if_pos h0]
    have hnone : ∀ r ∈ cur, r.email ≠ x := countEmail_eq_zero.mp h0
    have hany : cur.any (fun r => r.email == d2.email) = false := by
      rw [Bool.eq_false_iff]
      intro hc
      rw [List.any_eq_true] at hc
      obtain ⟨r, hr, he⟩ := hc
      exact hnone r hr (by simpa [hx] using he)
    unfold applyCreate create_candidate
    rw [hany]
    simp only [Bool.false_eq_true, if_false]
    unfold countEmail at h0 ⊢
    rw [List.filter_append, List.length_append, h0]
    simp [hx]
  · rw [if_neg h0]
    have hex : ∃ r ∈ cur, r.email = d2.email := by
      by_contra hc
      push_neg at hc
      exact h0 (countEmail_eq_zero.mpr (fun r hr => by
        intro he
        exact hc r hr (he.trans hx.symm)))
    obtain ⟨r, hr, hcr⟩ := create_candidate_exists hex
    unfold applyCreate
    rw [hcr]

theorem run_uploads_countEmail (x : String) :
    ∀ (ds : List CandidateRow) (cur : List CandidateRow),
      (∀ d2 ∈ ds, d2.email = x) → countEmail cur x = 1 →
      countEmail (run_uploads cur ds) x = 1 := by
  intro ds
  induction ds with
  | nil => intro cur _ h1; simpa [run_uploads] using h1
  | cons d2 rest ih =>
    intro cur hall h1
    have hstep : countEmail (applyCreate cur d2) x = 1 := by
      rw [applyCreate_countEmail cur d2 x (hall d2 (by simp))]
      rw [if_neg (by omega)]
      exact h1
    have : run_uploads cur (d2 :: rest) = run_uploads (applyCreate cur d2) rest := by
      simp [run_uploads]
    rw [this]
    exact ih (applyCreate cur d2) (fun q hq => hall q (by simp [hq])) hstep

/-- C8: creating a candidate whose email already exists in the store leaves
the store unchanged and returns the first pre-existing row with that email,
flagged with action "exists"; and after any sequence of uploads with the same
email into a store that held at most one row with it, exactly one stored row
with that email remains.  (The relational service in the source is a single
candidate collection per database session; within one owner's collection the
email column is unique.) -/
theorem create_candidate_duplicate_email (db : List CandidateRow)
    (d : CandidateRow) (ds : List CandidateRow)
    (hds : ∀ d2 ∈ ds, d2.email = d.email)
    (hdb : countEmail db d.email ≤ 1) :
    ((∃ r ∈ db, r.email = d.email) →
      ∃ r, db.find? (fun q => q.email == d.email) = some r ∧
        create_candidate db d = CreateOutcome.ok db "Candidate exists" "exists" r) ∧
    countEmail (run_uploads db (d :: ds)) d.email = 1 := by
  refine ⟨fun h => create_candidate_exists h, ?_⟩
  have hfirst : countEmail (applyCreate db d) d.email = 1 := by
    rw [applyCreate_countEmail db d d.email rfl]
    by_cases h0 : countEmail db d.email = 0
    · rw [if_pos h0]
    · rw [if_neg h0]
      omega
  have : run_uploads db (d :: ds) = run_uploads (applyCreate db d) ds := by
    simp [run_uploads]
  rw [this]
  exact run_uploads_countEmail d.email ds (applyCreate db d) hds hfirst

/-- Witness for C8: a store holding one row with email `j@x.co`; uploading
two more candidates with the same email returns the original row unchanged
with action "exists" and leaves exactly one stored row with that email. -/
theorem create_candidate_duplicate_email_witness :
    (∃ r, ([⟨some "Jane", "j@x.co", none, none, 0, none, none, none⟩] :
        List CandidateRow).find?
          (fun q => q.email == "j@x.co") = some r ∧
      create_candidate [⟨some "Jane", "j@x.co", none, none, 0, none, none, none⟩]
          ⟨some "Janet", "j@x.co", none, none, 2, none, none, none⟩ =
        CreateOutcome.ok [⟨some "Jane", "j@x.co", none, none, 0, none, none, none⟩]
          "Candidate exists" "exists" r) ∧
    countEmail (run_uploads [⟨some "Jane", "j@x.co", none, none, 0, none, none, none⟩]
      [⟨some "Janet", "j@x.co", none, none, 2, none, none, none⟩,
       ⟨some "Janet", "j@x.co", none, none, 2, none, none, none⟩]) "j@x.co" = 1 := by
  have h := create_candidate_duplicate_email
    [⟨some "Jane", "j@x.co", none, none, 0, none, none, none⟩]
    ⟨some "Janet", "j@x.co", none, none, 2, none, none, none⟩
    [⟨some "Janet", "j@x.co", none, none, 2, none, none, none⟩]
    (by decide) (by decide)
  exact ⟨h.1 (by decide), h.2⟩

/-! ## Embedding of the `ResumeFormatterService` merge and fallback chain -/

/-- The typed fields of the raw candidate record handed to the formatter
(each may be absent or null in the incoming dict). -/
structure RawCandidate where
  name : Option String
  email : Option String
  phone : Option String
  location : Option String
  experience_years : Option Int
  skills : Option (List String)
deriving DecidableEq

/-- The name/email/phone a local PII extraction resolved (non-null means
found). -/
structure PIIStrings where
  name : Option String
  email : Option String
  phone : Option String
deriving DecidableEq

/-- Python `a or b` on optional strings: `None` and the empty string are
falsy. -/
def pyOrStr (a b : Option String) : Option String :=
  match a with
  | some s => if s = "" then b else some s
  | none => b

/-- Python `str.strip()`: drop whitespace from both ends. -/
def pyStripChars (l : List Char) : List Char :=
  ((l.dropWhile Char.isWhitespace).reverse.dropWhile Char.isWhitespace).reverse

/-- Python `" ".join(words)`. -/
def joinWords : List (List Char) → List Char
  | [] => []
  | [w] => w
  | w :: ws => w ++ ' ' :: joinWords ws

/-- `ResumeFormatterService._clean_name`: collapse whitespace runs; null,
empty or all-whitespace input becomes `None`. -/
def clean_name (n : Option String) : Option String :=
  match n with
  | none => none
  | some s =>
    if s = "" then none
    else
      let cleaned := joinWords (pySplit s.data)
      if cleaned.isEmpty then none else some ⟨cleaned⟩

/-- `ResumeFormatterService._clean_email`: strip and lower-case, then require
an at sign and a dot; anything else becomes `None`. -/
def clean_email (e : Option String) : Option String :=
  match e with
  | none => none
  | some s =>
    if s = "" then none
    else
      let cleaned := pyLower ⟨pyStripChars s.data⟩
      if cleaned.data.contains '@' && cleaned.data.contains '.' then some cleaned
      else none

/-- `ResumeFormatterService._clean_phone`: strip; null or empty becomes
`None`. -/
def clean_phone (p : Option String) : Option String :=
  match p with
  | none => none
  | some s =>
    if s = "" then none
    else
      let cleaned := pyStripChars s.data
      if cleaned.isEmpty then none else some ⟨cleaned⟩

/-- `ResumeFormatterService._extract_location`: strip; null or empty becomes
`None`. -/
def extract_location (l : Option String) : Option String :=
  match l with
  | none => none
  | some s =>
    if s = "" then none
    else
      let cleaned := pyStripChars s.data
      if cleaned.isEmpty then none else some ⟨cleaned⟩

/-- `ResumeFormatterService._clean_experience` on the typed integer case:
clamp below at 0, `None` becomes 0 (the string digit-extraction branch is for
untyped records and is outside this embedding). -/
def clean_experience (e : Option Int) : Int :=
  match e with
  | none => 0
  | some v => max 0 v

/-- `ResumeFormatterService._clean_skills` on the list case: keep each skill
whose strip is non-empty, stripped. -/
def clean_skills (sk : Option (List String)) : List String :=
  match sk with
  | none => []
  | some l =>
    l.filterMap (fun s =>
      if s ≠ "" ∧ (pyStripChars s.data).isEmpty = false then
        some ⟨pyStripChars s.data⟩
      else none)

/-- The `FormattedCandidateData` model built by the formatter. -/
structure FormattedCandidateData where
  name : Option String
  email : Option String
  phone : Option String
  location : Option String
  experience_years : Int
  skills : List String
deriving DecidableEq

/-- The candidate record built by
`ResumeFormatterService._fallback_with_enhanced_local_pii` (the tier used
when the remote structured-data call fails): name/email/phone prefer the
locally extracted PII and otherwise fall back to the cleaned original
values; the professional fields are cleaned from the original record. -/
def fallback_with_enhanced_local_pii_candidate (pii : PIIStrings)
    (raw : RawCandidate) : FormattedCandidateData :=
  { name := pyOrStr pii.name (clean_name raw.name)
    email := pyOrStr pii.email (clean_email raw.email)
    phone := pyOrStr pii.phone (clean_phone raw.phone)
    location := extract_location raw.location
    experience_years := clean_experience raw.experience_years
    skills := clean_skills raw.skills }

/-- The JSON object returned by the remote structured-data call; `none`
models a missing key. -/
structure LlmData where
  skills : Option (List String)
  experience_years : Option Int
  location : Option String
deriving DecidableEq

/-- Python `a or b` for an optional integer against a default (0 and `None`
are falsy). -/
def pyOrInt (a : Option Int) (b : Int) : Int :=
  match a with
  | some v => if v = 0 then b else v
  | none => b

/-- The dict built by `ResumeFormatterService._combine_pii_and_non_pii`. -/
structure CombinedData where
  name : Option String
  email : Option String
  phone : Option String
  skills : List String
  experience_years : Int
  location : Option String
deriving DecidableEq

/-- Shallow embedding of `ResumeFormatterService._combine_pii_and_non_pii`
(the merge used when the remote call succeeds): name/email/phone prefer the
locally extracted PII falling back to the original verbatim; skills come from
the remote result when its key is present, experience and location fall back
through Python `or`. -/
def combine_pii_and_non_pii (pii : PIIStrings) (llm : LlmData)
    (orig : RawCandidate) : CombinedData :=
  { name := pyOrStr pii.name orig.name
    email := pyOrStr pii.email orig.email
    phone := pyOrStr pii.phone orig.phone
    skills := llm.skills.getD (orig.skills.getD [])
    experience_years := pyOrInt llm.experience_years (orig.experience_years.getD 0)
    location := pyOrStr llm.location orig.location }

/-- C10 (amended): when the remote structured-data call fails, the formatted
record is built by the enhanced-local-PII fallback: its name, email and phone
equal the locally extracted values whenever local extraction found a truthy
value; a field for which local extraction found nothing falls back to a
cleaned version of the original record's value (whitespace-collapsed name,
stripped lower-cased shape-checked email, stripped phone - not the verbatim
original); on the remote-success path the merge falls back to the verbatim
original instead.  No locally extracted PII is lost on remote failure. -/
theorem fallback_local_pii_merge (pii : PIIStrings) (raw : RawCandidate)
    (llm : LlmData) :
    (∀ s, pii.name = some s → s ≠ "" →
      (fallback_with_enhanced_local_pii_candidate pii raw).name = some s) ∧
    (∀ s, pii.email = some s → s ≠ "" →
      (fallback_with_enhanced_local_pii_candidate pii raw).email = some s) ∧
    (∀ s, pii.phone = some s → s ≠ "" →
      (fallback_with_enhanced_local_pii_candidate pii raw).phone = some s) ∧
    ((pii.name = none ∨ pii.name = some "") →
      (fallback_with_enhanced_local_pii_candidate pii raw).name = clean_name raw.name) ∧
    ((pii.email = none ∨ pii.email = some "") →
      (fallback_with_enhanced_local_pii_candidate pii raw).email = clean_email raw.email) ∧
    ((pii.phone = none ∨ pii.phone = some "") →
      (fallback_with_enhanced_local_pii_candidate pii raw).phone = clean_phone raw.phone) ∧
    (∀ s, pii.email = some s → s ≠ "" →
      (combine_pii_and_non_pii pii llm raw).email = some s) := by
  refine ⟨?_, ?_, ?_, ?_, ?_, ?_, ?_⟩
  · intro s hs hne
    simp [fallback_with_enhanced_local_pii_candidate, pyOrStr, hs, hne]
  · intro s hs hne
    simp [fallback_with_enhanced_local_pii_candidate, pyOrStr, hs, hne]
  · intro s hs hne
    simp [fallback_with_enhanced_local_pii_candidate, pyOrStr, hs, hne]
  · rintro (h | h) <;> simp [fallback_with_enhanced_local_pii_candidate, pyOrStr, h]
  · rintro (h | h) <;> simp [fallback_with_enhanced_local_pii_candidate, pyOrStr, h]
  · rintro (h | h) <;> simp [fallback_with_enhanced_local_pii_candidate, pyOrStr, h]
  · intro s hs hne
    simp [combine_pii_and_non_pii, pyOrStr, hs, hne]

/-- Witness for C10: local extraction resolved `jane@x.co`, so the fallback
record carries it and ignores the original record's email. -/
theorem fallback_local_pii_merge_witness :
    (fallback_with_enhanced_local_pii_candidate
      ⟨none, some "jane@x.co", none⟩
      ⟨none, some "OTHER@Y.CO", none, none, none, none⟩).email = some "jane@x.co" :=
  (fallback_local_pii_merge ⟨none, some "jane@x.co", none⟩
    ⟨none, some "OTHER@Y.CO", none, none, none, none⟩
    ⟨none, none, none⟩).2.1 "jane@x.co" rfl (by decide)

/-- C10 counterexample: the claim says a field where local extraction found
nothing falls back to "the original record's values".  With no email resolved
and original email `JOHN@EXAMPLE.COM`, the fallback record's email is the
cleaned `john@example.com`, not the original string. -/
theorem fallback_email_not_verbatim_counterexample :
    (fallback_with_enhanced_local_pii_candidate ⟨none, none, none⟩
      ⟨none, some "JOHN@EXAMPLE.COM", none, none, none, none⟩).email =
      some "john@example.com" ∧
    some ("john@example.com" : String) ≠ some ("JOHN@EXAMPLE.COM" : String) := by
  refine ⟨by decide, by decide⟩

/-- The response model returned by `format_resume_output` (fields as in the
`FrontendResumeResponse` schema). -/
structure FrontendResumeResponse where
  status : String
  message : String
  candidate : FormattedCandidateData
  filename : String
  is_new : Bool
  note : Option String
  formatted_summary : String
deriving DecidableEq

/-- The terminal error-status placeholder response built inside
`_minimal_fallback`'s exception handler, from literal values only. -/
def error_placeholder_response : FrontendResumeResponse :=
  { status := "error"
    message := "Resume processing encountered errors"
    candidate :=
      { name := some "Unknown", email := none, phone := none, location := none,
        experience_years := 0, skills := [] }
    filename := ""
    is_new := true
    note := some "Processing failed"
    formatted_summary := "Name: Unknown | Email: No email | Phone: No phone | Location: No location | Experience: 0 years | Skills: No skills listed" }

/-- Oracles for the fallible sub-steps of `format_resume_output`, modelling
each Python step that can raise (or, for the LLM call, fail by returning
`None`) as an `Except` / `Option` value: the `jsonable_encoder` call, the
local PII extraction and sanitization inside the main `try`, the remote-call
result, and the response-construction bodies of the main path and of the
three fallback tiers. -/
structure FormatterEnv where
  encode : Except String Unit
  extract_pii : Except String PIIStrings
  llm : Option LlmData
  buildMain : LlmData → Except String FrontendResumeResponse
  buildFallback1 : Except String FrontendResumeResponse
  buildFallback2 : Except String FrontendResumeResponse
  buildMinimal : Except String FrontendResumeResponse

/-- `ResumeFormatterService._minimal_fallback`: its `try` body, or the
terminal literal placeholder if that body raises. -/
def minimal_fallback (env : FormatterEnv) : FrontendResumeResponse :=
  match env.buildMinimal with
  | .ok r => r
  | .error _ => error_placeholder_response

/-- `ResumeFormatterService._fallback_with_enhanced_local_pii`: its `try`
body, degrading to `_minimal_fallback`. -/
def fallback_with_enhanced_local_pii (env : FormatterEnv) : FrontendResumeResponse :=
  match env.buildFallback1 with
  | .ok r => r
  | .error _ => minimal_fallback env

/-- `ResumeFormatterService._fallback_formatting`: its `try` body, degrading
to `_minimal_fallback`. -/
def fallback_formatting (env : FormatterEnv) : FrontendResumeResponse :=
  match env.buildFallback2 with
  | .ok r => r
  | .error _ => minimal_fallback env

/-- The main `try` block of `format_resume_output`: encode, extract PII,
then either the LLM-assisted build (when the remote call returned data) or
the enhanced-local-PII fallback (which is total). -/
def format_resume_output_main (env : FormatterEnv) :
    Except String FrontendResumeResponse := do
  let _ ← env.encode
  let _ ← env.extract_pii
  match env.llm with
  | some d => env.buildMain d
  | none => pure (fallback_with_enhanced_local_pii env)

/-- Shallow embedding of `ResumeFormatterService.format_resume_output`: the
main path, with the outer exception handler re-encoding and degrading to
`_fallback_formatting`, or to `_minimal_fallback` when even encoding fails. -/
def format_resume_output (env : FormatterEnv) : FrontendResumeResponse :=
  match format_resume_output_main env with
  | .ok r => r
  | .error _ =>
    match env.encode with
    | .ok _ => fallback_formatting env
    | .error _ => minimal_fallback env

/-- C9: the formatting orchestrator is total (never raises): its result is
always one of the four tiers - the LLM-assisted build, the local-PII-plus-
manual-cleanup fallback, the minimal-placeholder fallback (reached through
either `_fallback_formatting` or `_minimal_fallback`'s try body), or the
terminal error-status placeholder; and when every earlier tier fails (each
oracle errors), the terminal placeholder is returned without raising. -/
theorem format_resume_output_four_tiers (env : FormatterEnv) :
    ((∃ d r, env.llm = some d ∧ env.buildMain d = Except.ok r ∧
        format_resume_output env = r) ∨
      (∃ r, env.buildFallback1 = Except.ok r ∧ format_resume_output env = r) ∨
      (∃ r, env.buildFallback2 = Except.ok r ∧ format_resume_output env = r) ∨
      (∃ r, env.buildMinimal = Except.ok r ∧ format_resume_output env = r) ∨
      format_resume_output env = error_placeholder_response) ∧
    (∀ e1 e4, env.encode = Except.error e1 → env.buildMinimal = Except.error e4 →
      format_resume_output env = error_placeholder_response) ∧
    (∀ u p e2 e4, env.encode = Except.ok u → env.extract_pii = Except.ok p →
      env.llm = none → env.buildFallback1 = Except.error e2 →
      env.buildMinimal = Except.error e4 →
      format_resume_output env = error_placeholder_response) := by
  refine ⟨?_, ?_, ?_⟩
  · cases henc : env.encode with
    | error e =>
      cases hmin : env.buildMinimal with
      | ok r =>
        refine Or.inr (Or.inr (Or.inr (Or.inl ⟨r, rfl, ?_⟩)))
        simp [format_resume_output, format_resume_output_main, minimal_fallback,
          henc, hmin, bind, Except.bind]
      | error e4 =>
        refine Or.inr (Or.inr (Or.inr (Or.inr ?_)))
        simp [format_resume_output, format_resume_output_main, minimal_fallback,
          henc, hmin, bind, Except.bind]
    | ok u =>
      cases hext : env.extract_pii with
      | error e =>
        cases hb2 : env.buildFallback2 with
        | ok r =>
          refine Or.inr (Or.inr (Or.inl ⟨r, rfl, ?_⟩))
          simp [format_resume_output, format_resume_output_main, fallback_formatting,
            henc, hext, hb2, bind, Except.bind]
        | error e2 =>
          cases hmin : env.buildMinimal with
          | ok r =>
            refine Or.inr (Or.inr (Or.inr (Or.inl ⟨r, rfl, ?_⟩)))
            simp [format_resume_output, format_resume_output_main, fallback_formatting,
              minimal_fallback, henc, hext, hb2, hmin, bind, Except.bind]
          | error e4 =>
            refine Or.inr (Or.inr (Or.inr (Or.inr ?_)))
            simp [format_resume_output, format_resume_output_main, fallback_formatting,
              minimal_fallback, henc, hext, hb2, hmin, bind, Except.bind]
      | ok p =>
        cases hllm : env.llm with
        | some d =>
          cases hbm : env.buildMain d with
          | ok r =>
            refine Or.inl ⟨d, r, rfl, hbm, ?_⟩
            simp [format_resume_output, format_resume_output_main,
              henc, hext, hllm, hbm, bind, Except.bind]
          | error e3 =>
            cases hb2 : env.buildFallback2 with
            | ok r =>
              refine Or.inr (Or.inr (Or.inl ⟨r, rfl, ?_⟩))
              simp [format_resume_output, format_resume_output_main, fallback_formatting,
                henc, hext, hllm, hbm, hb2, bind, Except.bind]
            | error e2 =>
              cases hmin : env.buildMinimal with
              | ok r =>
                refine Or.inr (Or.inr (Or.inr (Or.inl ⟨r, rfl, ?_⟩)))
                simp [format_resume_output, format_resume_output_main, fallback_formatting,
                  minimal_fallback, henc, hext, hllm, hbm, hb2, hmin, bind, Except.bind]
              | error e4 =>
                refine Or.inr (Or.inr (Or.inr (Or.inr ?_)))
                simp [format_resume_output, format_resume_output_main, fallback_formatting,
                  minimal_fallback, henc, hext, hllm, hbm, hb2, hmin, bind, Except.bind]
        | none =>
          cases hb1 : env.buildFallback1 with
          | ok r =>
            refine Or.inr (Or.inl ⟨r, rfl, ?_⟩)
            simp [format_resume_output, format_resume_output_main,
              fallback_with_enhanced_local_pii, henc, hext, hllm, hb1,
              bind, Except.bind, pure, Except.pure]
          | error e2 =>
            cases hmin : env.buildMinimal with
            | ok r =>
              refine Or.inr (Or.inr (Or.inr (Or.inl ⟨r, rfl, ?_⟩)))
              simp [format_resume_output, format_resume_output_main,
                fallback_with_enhanced_local_pii, minimal_fallback, henc, hext, hllm,
                hb1, hmin, bind, Except.bind, pure, Except.pure]
            | error e4 =>
              refine Or.inr (Or.inr (Or.inr (Or.inr ?_)))
              simp [format_resume_output, format_resume_output_main,
                fallback_with_enhanced_local_pii, minimal_fallback, henc, hext, hllm,
                hb1, hmin, bind, Except.bind, pure, Except.pure]
  · intro e1 e4 henc hmin
    simp [format_resume_output, format_resume_output_main, minimal_fallback,
      henc, hmin, bind, Except.bind]
  · intro u p e2 e4 henc hext hllm hb1 hmin
    simp [format_resume_output, format_resume_output_main,
      fallback_with_enhanced_local_pii, minimal_fallback, henc, hext, hllm,
      hb1, hmin, bind, Except.bind, pure, Except.pure]

/-- Witness for C9: an environment in which every step fails still yields
the terminal error-status placeholder response. -/
theorem format_resume_output_four_tiers_witness :
    format_resume_output
      ⟨Except.error "boom", Except.error "boom", none,
        fun _ => Except.error "boom", Except.error "boom",
        Except.error "boom", Except.error "boom"⟩ =
      error_placeholder_response :=
  (format_resume_output_four_tiers
    ⟨Except.error "boom", Except.error "boom", none,
      fun _ => Except.error "boom", Except.error "boom",
      Except.error "boom", Except.error "boom"⟩).2.1 "boom" "boom" rfl rfl

end HireAI
